import Mathlib

/-!
Verification of the forky web front-end (FlowGraph graph renderer, the App
component's message submission / streaming / search / checkout logic, and the
older tree renderer) against its natural-language specification.

The JavaScript source is shallowly embedded: each React handler or render
pass is translated into a pure Lean function over explicit state, and the
claims of the specification are settled as theorems about those functions.
-/

set_option maxHeartbeats 1000000

namespace Forky

/-! ## String utilities

JavaScript's `String.prototype.includes` is embedded as a scan over the
character list of the string. -/

/-- Whether `p` is an initial segment of `l` (character-level). -/
def startsWithChars : List Char → List Char → Bool
  | [], _ => true
  | _ :: _, [] => false
  | p :: ps, c :: cs => p == c && startsWithChars ps cs

/-- Whether `pat` occurs contiguously inside `l`; JS `haystack.includes(pat)`. -/
def containsChars (pat : List Char) : List Char → Bool
  | [] => startsWithChars pat []
  | c :: cs => startsWithChars pat (c :: cs) || containsChars pat cs

/-- JS `s.includes('<FORK>')` from FlowGraph.jsx line 147. -/
def includesFork (s : String) : Bool := containsChars "<FORK>".data s.data

/-- JS `s.trim()`: strip leading and trailing whitespace (embedded
character-wise). -/
def jsTrim (s : String) : String :=
  String.mk (((s.data.dropWhile Char.isWhitespace).reverse.dropWhile Char.isWhitespace).reverse)

/-! ## Raw graph data

The `/graph` endpoint returns a flat node list; each element carries `id`,
`role`, `content` and either a `parent_ids` array or a legacy scalar
`parent_id` (FlowGraph.jsx reads `n.parent_ids || (n.parent_id ? [n.parent_id] : [])`).
A missing `content` is embedded as the empty string (both are falsy in the
only guard that reads it). -/

structure RawNode where
  id : String
  role : String
  content : String
  parent_ids : Option (List String)
  parent_id : Option String
deriving Repr, DecidableEq

/-- The effective parent list of a raw node: FlowGraph.jsx line 136
`n.parent_ids || (n.parent_id ? [n.parent_id] : [])`.  (A present-but-empty
`parent_ids` array is truthy in JS, so it is used as-is.) -/
def RawNode.effParents (n : RawNode) : List String :=
  match n.parent_ids with
  | some l => l
  | none =>
    match n.parent_id with
    | some p => [p]
    | none => []

/-- An entry of the mutable `nodeMap`: the spread copy of a raw node plus the
`children` array added at build time.  The code only ever reads the parent
fields through the `parent_ids || parent_id` pattern and only ever writes
`parent_ids`, so the two fields are embedded as the single normalized list
`parents`. -/
structure GNode where
  id : String
  role : String
  content : String
  parents : List String
  children : List String
deriving Repr, DecidableEq

/-! ## JS `Map` embedding

`nodeMap` is a `Map` keyed by node id, embedded as an association list of
`GNode`s in insertion order.  `Map.set` on an existing key replaces the value
in place; on a new key it appends. -/

def mapGet : List GNode → String → Option GNode
  | [], _ => none
  | g :: m, k => if g.id = k then some g else mapGet m k

def mapHas : List GNode → String → Bool
  | [], _ => false
  | g :: m, k => if g.id = k then true else mapHas m k

/-- Mutating the entry at key `k` (a no-op when the key is absent, matching
the `if (child)` / `if (parent)` guards around `nodeMap.get`). -/
def mapUpdate (m : List GNode) (k : String) (f : GNode → GNode) : List GNode :=
  m.map (fun g => if g.id = k then f g else g)

def mapSet (m : List GNode) (g : GNode) : List GNode :=
  if mapHas m g.id then mapUpdate m g.id (fun _ => g) else m ++ [g]

def mapRemove : List GNode → String → List GNode
  | [], _ => []
  | g :: m, k => if g.id = k then mapRemove m k else g :: mapRemove m k

/-- Step 1 of the FlowGraph transform: `data.forEach(n => nodeMap.set(n.id, {...n, children: []}))`. -/
def RawNode.toG (n : RawNode) : GNode :=
  { id := n.id, role := n.role, content := n.content, parents := n.effParents, children := [] }

def buildMap (data : List RawNode) : List GNode :=
  data.foldl (fun m n => mapSet m n.toG) []

/-- Step 2: populate children — for each raw node `n`, push `n.id` onto the
`children` of every parent present in the map. -/
def populateChildren (m : List GNode) (n : RawNode) : List GNode :=
  n.effParents.foldl (fun acc pid => mapUpdate acc pid
    (fun g => { g with children := g.children ++ [n.id] })) m

/-- JS push-if-absent loop: `xs.forEach(x => { if (!l.includes(x)) l.push(x) })`. -/
def dedupPush (l : List String) : List String → List String
  | [] => l
  | x :: xs => dedupPush (if x ∈ l then l else l ++ [x]) xs

/-- The fork-marker test of FlowGraph.jsx line 147:
`node.role === 'system' && node.content && node.content.includes('<FORK>')`. -/
def isForkMarker (g : GNode) : Bool :=
  g.role == "system" && g.content != "" && includesFork g.content

/-- Rewiring of one child of a deleted fork node (FlowGraph.jsx lines
156–171): remove the fork's id from the child's parent list and push the
fork's parents, skipping duplicates. -/
def childRw (nid : String) (pIds : List String) (g : GNode) : GNode :=
  { g with parents := dedupPush (g.parents.filter (fun i => i ≠ nid)) pIds }

/-- Rewiring of one parent of a deleted fork node (FlowGraph.jsx lines
174–184): remove the fork's id from the parent's children list and push the
fork's children, skipping duplicates. -/
def parentRw (nid : String) (cIds : List String) (g : GNode) : GNode :=
  { g with children := dedupPush (g.children.filter (fun i => i ≠ nid)) cIds }

/-- Step 2.5, one iteration of the collapse pass for the node with id `nid`:
if it is a fork marker, rewire its children onto its parents, rewire its
parents' `children` arrays likewise, and delete it from the map. -/
def collapseStep (m : List GNode) (nid : String) : List GNode :=
  match mapGet m nid with
  | none => m
  | some node =>
    if isForkMarker node then
      let pIds := node.parents
      let cIds := node.children
      let m1 := cIds.foldl (fun acc cid => mapUpdate acc cid (childRw nid pIds)) m
      let m2 := pIds.foldl (fun acc pid => mapUpdate acc pid (parentRw nid cIds)) m1
      mapRemove m2 nid
    else m

/-- The combined effect of one collapse iteration on a single surviving map
entry (derived below as `collapseStep_char`). -/
def rwFun (nid : String) (f : GNode) (g : GNode) : GNode :=
  let g1 := if g.id ∈ f.children then childRw nid f.parents g else g
  if g1.id ∈ f.parents then parentRw nid f.children g1 else g1

/-- Steps 1–2.5 of the FlowGraph transform: build the map, populate children,
then run the collapse pass over a snapshot of the map's node ids
(`Array.from(nodeMap.values())` taken before any deletion). -/
def flowPrep (data : List RawNode) : List GNode :=
  let m0 := buildMap data
  let m1 := data.foldl populateChildren m0
  (m1.map (fun g => g.id)).foldl collapseStep m1

/-! ## Identification (coalescing) pass and edge pass -/

/-- A node emitted for rendering.  `role = "turn"` marks a coalesced
user–assistant pair; unused content fields are empty strings. -/
structure RNode where
  id : String
  role : String
  userContent : String
  assistantContent : String
  fullContent : String
  isCurrent : Bool
deriving Repr, DecidableEq

structure IdState where
  processed : List String
  merged : List (String × String)
  outNodes : List RNode
deriving Repr, DecidableEq

/-- The individual-node branch of the identification pass. -/
def emitSingle (currentId : Option String) (st : IdState) (node : GNode) : IdState :=
  let rn : RNode := ⟨node.id, node.role, "", "", node.content, currentId == some node.id⟩
  ⟨st.processed ++ [node.id], st.merged ++ [(node.id, node.id)], st.outNodes ++ [rn]⟩

/-- One iteration of the identification pass (FlowGraph.jsx lines 197–250):
skip already-processed nodes; coalesce a user node having exactly one child
that is an unprocessed assistant node into a "turn" rendered under the
assistant child's id; otherwise emit the node individually. -/
def identifyStep (m : List GNode) (currentId : Option String) (st : IdState)
    (node : GNode) : IdState :=
  if node.id ∈ st.processed then st
  else if node.role == "user" && node.children.length == 1 then
    -- const childId = node.children[0]
    match node.children.head? with
    | some cid =>
      match mapGet m cid with
      | some child =>
        if child.role == "assistant" && !(st.processed.contains child.id) then
          let rn : RNode := ⟨child.id, "turn", node.content, child.content, "Merged Turn",
            currentId == some child.id || currentId == some node.id⟩
          ⟨st.processed ++ [node.id, child.id],
           st.merged ++ [(node.id, child.id), (child.id, child.id)],
           st.outNodes ++ [rn]⟩
        else emitSingle currentId st node
      | none => emitSingle currentId st node
    | none => emitSingle currentId st node
  else emitSingle currentId st node

def identifyPass (m : List GNode) (currentId : Option String) : IdState :=
  m.foldl (identifyStep m currentId) ⟨[], [], []⟩

/-- Lookup in `mergedMap` (old id → rendered id). -/
def assocLookup : List (String × String) → String → Option String
  | [], _ => none
  | kv :: l, k => if kv.1 = k then some kv.2 else assocLookup l k

structure EdgeState where
  keys : List String
  edges : List (String × String)
deriving Repr, DecidableEq

/-- The edges pass (FlowGraph.jsx lines 252–285): for each surviving node,
map its id and each of its parent ids through `mergedMap`, drop unresolved
sources, drop self-loops, and deduplicate on the string key
`sourceId ++ "-" ++ targetId`. -/
def edgeStep (merged : List (String × String)) (st : EdgeState) (node : GNode) : EdgeState :=
  match assocLookup merged node.id with
  | none => st
  | some targetId =>
    node.parents.foldl (fun acc srcRaw =>
      match assocLookup merged srcRaw with
      | some sourceId =>
        if sourceId ≠ targetId then
          let key := sourceId ++ "-" ++ targetId
          if key ∈ acc.keys then acc
          else { keys := acc.keys ++ [key], edges := acc.edges ++ [(sourceId, targetId)] }
        else acc
      | none => acc) st

def edgesPass (m : List GNode) (merged : List (String × String)) : List (String × String) :=
  (m.foldl (edgeStep merged) ⟨[], []⟩).edges

/-- The node list handed to ReactFlow (layout only adds positions). -/
def flowNodes (data : List RawNode) (currentId : Option String) : List RNode :=
  (identifyPass (flowPrep data) currentId).outNodes

/-- The edge list handed to ReactFlow. -/
def flowEdges (data : List RawNode) (currentId : Option String) : List (String × String) :=
  let m := flowPrep data
  edgesPass m (identifyPass m currentId).merged

/-! ## App component: request traces

The HTTP side effects of the App handlers are embedded as traces of emitted
events: requests posted to the backend and `alert` dialogs shown to the
user.  A trace function returns the events in program order. -/

/-- A request posted to the backend, with the fields the handler passes. -/
inductive Req where
  | checkout (identifier : String) (conversationId : Option String)
  | mergeBranches (targetNodeId : Option String) (mergePrompt : String)
      (conversationId : Option String)
  | chat (message : String) (modelName : String) (attachmentIds : Option (List String))
      (conversationId : Option String)
  | loadConversation (conversationId : String)
deriving Repr, DecidableEq

inductive Evt where
  | req (r : Req)
  | alert (msg : String)
deriving Repr, DecidableEq

/-- The `/check_merge_eligibility` response held in `mergeEligibility` state. -/
structure Elig where
  eligible : Bool
  rejection_reason : Option String
  lca_id : Option String
deriving Repr, DecidableEq

/-- `mergeEligibility?.eligible` under JS truthiness (null object → falsy). -/
def eligTruthy : Option Elig → Bool
  | none => false
  | some e => e.eligible

/-- `mergeEligibility?.rejection_reason || "unknown"` (absent field and empty
string are both falsy). -/
def effReason : Option Elig → String
  | none => "unknown"
  | some e =>
    match e.rejection_reason with
    | none => "unknown"
    | some r => if r = "" then "unknown" else r

/-- The alert text chosen for an ineligible merge (App lines 333–341). -/
def mergeRejectAlert (reason : String) : String :=
  if reason = "cannot_merge_ancestor_with_descendant" then
    "Cannot merge: one node is an ancestor of the other. Select two divergent branches."
  else if reason = "cannot_merge_node_with_itself" then
    "Cannot merge a node with itself."
  else if reason = "no_common_ancestor_found" then
    "Cannot merge: no common ancestor found between these nodes."
  else
    "Merge not allowed: " ++ reason

/-- The shared merge branch of both `sendMessage` generations (new: lines
329–400, old: lines 1020–1091; the two are textually identical).  `selected`
is `selectedNodeIds` (known to have length 2 by the caller's guard),
`checkoutOk` tells whether the auto-checkout POST succeeds. -/
def mergeSubmit (conv : Option String) (input : String) (selected : List String)
    (elig : Option Elig) (current : Option String) (checkoutOk : Bool) : List Evt :=
  if eligTruthy elig = false then
    [Evt.alert (mergeRejectAlert (effReason elig))]
  else
    -- isCurrentInSelection = selectedNodeIds.includes(currentNodeId)
    let isCurrentInSelection :=
      match current with
      | some c => selected.contains c
      | none => false
    if isCurrentInSelection then
      -- targetId = selectedNodeIds.find(id => id !== currentNodeId)
      let targetId := selected.find? (fun idv => idv != current.getD "")
      [Evt.req (Req.mergeBranches targetId input conv)]
    else
      match selected with
      | [baseId, targetId] =>
        if checkoutOk then
          [Evt.req (Req.checkout baseId conv),
           Evt.req (Req.mergeBranches (some targetId) input conv)]
        else
          [Evt.req (Req.checkout baseId conv),
           Evt.alert "Failed to auto-checkout base node for merge."]
      | _ => []  -- unreachable: caller guards selected.length = 2

/-- The newer, attachment-enabled `sendMessage` (App lines 320–457). -/
def sendMessageNew (conv : Option String) (input : String) (uploadingFiles : Bool)
    (pendingAttachments : List String) (selected : List String) (elig : Option Elig)
    (current : Option String) (checkoutOk : Bool) (modelName : String) : List Evt :=
  if jsTrim input = "" then []
  else if uploadingFiles then
    [Evt.alert "Please wait for file uploads to complete before sending."]
  else if selected.length = 2 then
    mergeSubmit conv input selected elig current checkoutOk
  else
    let atts := if pendingAttachments.length > 0 then some pendingAttachments else none
    [Evt.req (Req.chat input modelName atts conv)]

/-- The older `sendMessage` (App lines 1015–1144): no upload guard, no
attachments field in the chat body. -/
def sendMessageOld (conv : Option String) (input : String) (selected : List String)
    (elig : Option Elig) (current : Option String) (checkoutOk : Bool)
    (modelName : String) : List Evt :=
  if jsTrim input = "" then []
  else if selected.length = 2 then
    mergeSubmit conv input selected elig current checkoutOk
  else
    [Evt.req (Req.chat input modelName none conv)]

/-- Keep only checkout and merge requests of a trace (the requests claim C10
compares). -/
def checkoutMergeReqs (evts : List Evt) : List Req :=
  evts.filterMap (fun e =>
    match e with
    | Evt.req (Req.checkout i c) => some (Req.checkout i c)
    | Evt.req (Req.mergeBranches t p c) => some (Req.mergeBranches t p c)
    | _ => none)

/-- A trace aborted without performing its main action: it contains neither a
merge request nor a chat request. -/
def abortedTrace (evts : List Evt) : Prop :=
  ∀ e ∈ evts, (∀ t p c, e ≠ Evt.req (Req.mergeBranches t p c)) ∧
    (∀ msg mn a c, e ≠ Evt.req (Req.chat msg mn a c))

/-! ## Search result click (App lines 187–205) -/

structure SearchViewState where
  searchQuery : String
  searchResults : List String
deriving Repr, DecidableEq

/-- `handleSearchResultClick`: load the result's conversation when it differs
from the current one, then checkout the result's node; finally clear the
search box and result list (even when the checkout fails). -/
def handleSearchResultClick (currentConversationId : Option String)
    (resultConversationId resultNodeId : String) : List Req × SearchViewState :=
  let loadReqs :=
    if some resultConversationId ≠ currentConversationId then
      [Req.loadConversation resultConversationId]
    else []
  (loadReqs ++ [Req.checkout resultNodeId (some resultConversationId)], ⟨"", []⟩)

/-! ## Streaming chat loop (App lines 402–447 / web App.jsx lines 204–257) -/

/-- `newHistory[newHistory.length - 1] = v` (the history is nonempty at every
use site thanks to the optimistic update). -/
def setLast (l : List String) (v : String) : List String :=
  l.dropLast ++ [v]

/-- The chat streaming loop: starting from the optimistic update
`[...prev, "user: " + input, "assistant: "]`, each received chunk is appended
to the accumulated response and the last history entry is overwritten with
`"assistant: " + accumulated`.  The function returns the history after the
stream delivered exactly the chunks of `chunks` (ending early is the same as
running on a prefix). -/
def chatStream (prev : List String) (input : String) (chunks : List String) : List String :=
  let h0 := prev ++ ["user: " ++ input, "assistant: "]
  (chunks.foldl (fun (st : List String × String) chunk =>
    let assistantResponse := st.2 ++ chunk
    (setLast st.1 ("assistant: " ++ assistantResponse), assistantResponse)) (h0, "")).1

/-! ## Node click (App lines 459–497, FlowGraph lines 298–317)

FlowGraph's own click handler always forwards the click to `onNodeClick`
with the rendered node's id; App's `handleNodeClick` checks modifier keys
and otherwise posts a checkout for that id. -/

def handleNodeClickReqs (modifierKey : Bool) (nodeId : String)
    (conv : Option String) : List Req :=
  if modifierKey then [] else [Req.checkout nodeId conv]

/-! ## Older tree renderer (web/src/App.jsx lines 136–169)

The `/tree` endpoint returns a nested tree; `transform` coalesces a user
node with a single assistant child into a TURN node keyed by the assistant's
id. -/

inductive TNode where
  | mk (id : String) (role : String) (content : String) (isCur : Bool)
      (branch : Option String) (children : List TNode)
deriving Repr

def TNode.id : TNode → String | .mk i _ _ _ _ _ => i
def TNode.role : TNode → String | .mk _ r _ _ _ _ => r
def TNode.content : TNode → String | .mk _ _ c _ _ _ => c
def TNode.isCur : TNode → Bool | .mk _ _ _ b _ _ => b
def TNode.branch : TNode → Option String | .mk _ _ _ _ b _ => b
def TNode.children : TNode → List TNode | .mk _ _ _ _ _ cs => cs

/-- A transformed display node for react-d3-tree. -/
inductive DTree where
  | turn (id : String) (userContent assistantContent : String) (isCurrent : Bool)
      (children : List DTree)
  | plain (name : String) (id : String) (role : String) (content : String)
      (isCurrent : Bool) (children : List DTree)
deriving Repr

/-- Display name for a non-coalesced node. -/
def plainName (role content : String) (branch : Option String) : String :=
  if role = "system" ∧ content = "Root" then "ROOT"
  else if role = "system" ∧ content = "<FORK>" then
    "<FORK: " ++ branch.getD "" ++ ">"
  else role

mutual

/-- The recursive `transform` of web/src/App.jsx lines 136–169. -/
def transform : TNode → DTree
  | .mk i role content isCur branch [TNode.mk ci cr cc cic cb ccs] =>
    if role = "user" ∧ cr = "assistant" then
      DTree.turn ci content cc (cic || isCur) (transformList ccs)
    else
      DTree.plain (plainName role content branch) i role content isCur
        (transformList [TNode.mk ci cr cc cic cb ccs])
  | .mk i role content isCur branch children =>
    DTree.plain (plainName role content branch) i role content isCur
      (transformList children)

def transformList : List TNode → List DTree
  | [] => []
  | t :: ts => transform t :: transformList ts

end

/-! ## Graph relations and invariants used to verify the FlowGraph passes -/

/-- Parent edge of the raw input: `a` is listed among the effective parents
of the node with id `b`. -/
def origEdge (data : List RawNode) (a b : String) : Prop :=
  ∃ n ∈ data, n.id = b ∧ a ∈ n.effParents

/-- Strict ancestorship in the raw input. -/
def origReach (data : List RawNode) : String → String → Prop :=
  Relation.TransGen (origEdge data)

/-- The raw input is acyclic. -/
def AcyclicData (data : List RawNode) : Prop :=
  ∀ a, ¬ origReach data a a

/-- Every referenced parent id resolves to a node of the input. -/
def ParentClosed (data : List RawNode) : Prop :=
  ∀ n ∈ data, ∀ p ∈ n.effParents, ∃ q ∈ data, q.id = p

/-- Parent edge of a node-map state. -/
def mapEdge (m : List GNode) (a b : String) : Prop :=
  ∃ g ∈ m, g.id = b ∧ a ∈ g.parents

/-- What the built-and-populated node map looks like for duplicate-free
input: each node keeps its own fields and its children are exactly the input
nodes that list it as a parent, in input order. -/
def initialMap (data : List RawNode) : List GNode :=
  data.map (fun n =>
    { n.toG with children := (data.filter (fun x => decide (n.id ∈ x.effParents))).map RawNode.id })

/-- Invariants of the node map maintained by the collapse pass, relative to
an ambient strict-ancestor relation `R` on ids. -/
structure GraphInv (R : String → String → Prop) (m : List GNode) : Prop where
  nodupIds : (m.map GNode.id).Nodup
  parNodup : ∀ g ∈ m, g.parents.Nodup
  chiNodup : ∀ g ∈ m, g.children.Nodup
  parMem : ∀ g ∈ m, ∀ p ∈ g.parents, ∃ pg ∈ m, pg.id = p ∧ g.id ∈ pg.children
  parR : ∀ g ∈ m, ∀ p ∈ g.parents, R p g.id
  chiMem : ∀ g ∈ m, ∀ c ∈ g.children, ∃ cg ∈ m, cg.id = c ∧ g.id ∈ cg.parents

/-- Concrete input refuting claim C3 as literally stated: a system node whose
content merely contains the fork payload. -/
def dataC3 : List RawNode := [⟨"a", "system", "x<FORK>", some [], none⟩]

/-- Concrete input refuting claim C8 as literally stated: the assistant child
precedes its user parent in the node list, so it is emitted individually
before the user node is visited. -/
def dataC8 : List RawNode :=
  [⟨"a2", "assistant", "hi", some ["u1"], none⟩,
   ⟨"u1", "user", "q", some [], none⟩]

/-- Invariant of the edge-pass accumulator: the key set mirrors the emitted
edges, keys are unique, and every emitted edge is a non-loop whose endpoints
are values of `mergedMap`. -/
def EdgeInv (merged : List (String × String)) (st : EdgeState) : Prop :=
  st.keys = st.edges.map (fun e => e.1 ++ "-" ++ e.2) ∧
  st.keys.Nodup ∧
  ∀ e ∈ st.edges, e.1 ≠ e.2 ∧ (∃ kv ∈ merged, kv.2 = e.1) ∧ (∃ kv ∈ merged, kv.2 = e.2)

/-- A small well-formed conversation graph (root → fork → user) used to
instantiate universally quantified claims. -/
def dataW : List RawNode :=
  [⟨"r", "system", "Root", some [], none⟩,
   ⟨"f", "system", "<FORK>", some ["r"], none⟩,
   ⟨"u", "user", "hi", some ["f"], none⟩]

/-- A rank function witnessing acyclicity of `dataW`. -/
def rankW (s : String) : Nat :=
  if s = "r" then 0 else if s = "f" then 1 else if s = "u" then 2 else 3

/-! ## Claims C1, C2, C10: merge submission -/

/-- C1: for a merge submission with two selected nodes and granted
eligibility: when the current node is among the selection the client issues
no checkout and posts a merge whose target is the other selected node; when
neither selected node is current it first checks out the first-selected node
and then posts a merge targeting the second-selected node, and a failed
checkout suppresses the merge request.  (Making the current node the left
parent and the target the right parent is the server's reaction to this
request shape.) -/
theorem claim_C1 (conv : Option String) (input : String) (a b : String) (e : Elig)
    (current : Option String) (checkoutOk : Bool) (modelName : String)
    (hin : jsTrim input ≠ "") (hab : a ≠ b) (helig : e.eligible = true) :
    ((current = some a ∨ current = some b) →
      sendMessageNew conv input false [] [a, b] (some e) current checkoutOk modelName =
        [Evt.req (Req.mergeBranches (some (if current = some a then b else a)) input conv)]) ∧
    (current ≠ some a → current ≠ some b →
      (checkoutOk = true →
        sendMessageNew conv input false [] [a, b] (some e) current checkoutOk modelName =
          [Evt.req (Req.checkout a conv), Evt.req (Req.mergeBranches (some b) input conv)]) ∧
      (checkoutOk = false →
        sendMessageNew conv input false [] [a, b] (some e) current checkoutOk modelName =
          [Evt.req (Req.checkout a conv),
           Evt.alert "Failed to auto-checkout base node for merge."])) := by
  have hba : b ≠ a := Ne.symm hab
  have haa : (a != a) = false := by simp
  have hbna : (b != a) = true := bne_iff_ne.mpr hba
  have hanb : (a != b) = true := bne_iff_ne.mpr hab
  constructor
  · rintro (rfl | rfl)
    · simp [sendMessageNew, mergeSubmit, eligTruthy, helig, hin, List.find?,
        haa, hbna, hab]
    · simp [sendMessageNew, mergeSubmit, eligTruthy, helig, hin, List.find?,
        hanb, hba, hab]
  · intro hna hnb
    cases current with
    | none =>
      constructor <;> intro hok <;>
        simp [sendMessageNew, mergeSubmit, eligTruthy, helig, hin, hok]
    | some c =>
      have h1 : ¬ c = a := fun h => hna (by rw [h])
      have h2 : ¬ c = b := fun h => hnb (by rw [h])
      constructor <;> intro hok <;>
        simp [sendMessageNew, mergeSubmit, eligTruthy, helig, hin, hok, h1, h2]

theorem claim_C1_witness :
    jsTrim "m" ≠ "" ∧ ("a" : String) ≠ "b" ∧ (Elig.mk true none none).eligible = true ∧
    ((some "a" = some "a" ∨ (some "a" : Option String) = some "b") →
      sendMessageNew (some "c") "m" false [] ["a", "b"] (some (Elig.mk true none none))
          (some "a") true "gpt" =
        [Evt.req (Req.mergeBranches (some (if (some "a" : Option String) = some "a" then "b" else "a"))
          "m" (some "c"))]) :=
  ⟨by decide, by decide, rfl,
    (claim_C1 (some "c") "m" "a" "b" (Elig.mk true none none) (some "a") true "gpt"
      (by decide) (by decide) rfl).1⟩

/-- C2: with two selected nodes and a missing or negative eligibility result
the client sends no request at all and aborts with an alert; the three named
rejection reasons each map to their own explanation text and any other
reason is reported verbatim after "Merge not allowed: ". -/
theorem claim_C2 (conv : Option String) (input : String) (selected : List String)
    (elig : Option Elig) (current : Option String) (checkoutOk : Bool) (modelName : String)
    (hin : jsTrim input ≠ "") (hlen : selected.length = 2)
    (hbad : eligTruthy elig = false) :
    sendMessageNew conv input false [] selected elig current checkoutOk modelName =
      [Evt.alert (mergeRejectAlert (effReason elig))] ∧
    abortedTrace (sendMessageNew conv input false [] selected elig current checkoutOk modelName) ∧
    (mergeRejectAlert "cannot_merge_node_with_itself" ≠
       mergeRejectAlert "cannot_merge_ancestor_with_descendant" ∧
     mergeRejectAlert "cannot_merge_node_with_itself" ≠
       mergeRejectAlert "no_common_ancestor_found" ∧
     mergeRejectAlert "cannot_merge_ancestor_with_descendant" ≠
       mergeRejectAlert "no_common_ancestor_found") ∧
    (∀ r : String, r ≠ "cannot_merge_node_with_itself" →
       r ≠ "cannot_merge_ancestor_with_descendant" → r ≠ "no_common_ancestor_found" →
       mergeRejectAlert r = "Merge not allowed: " ++ r) ∧
    (∀ (b : Bool) (r : String) (lca : Option String), r ≠ "" →
       effReason (some ⟨b, some r, lca⟩) = r) := by
  have htrace : sendMessageNew conv input false [] selected elig current checkoutOk modelName =
      [Evt.alert (mergeRejectAlert (effReason elig))] := by
    simp [sendMessageNew, mergeSubmit, hin, hlen, hbad]
  refine ⟨htrace, ?_, ⟨?_, ?_, ?_⟩, ?_, ?_⟩
  · rw [htrace]
    intro e he
    simp only [List.mem_singleton] at he
    subst he
    exact ⟨(fun _ _ _ h => nomatch h), (fun _ _ _ _ h => nomatch h)⟩
  · decide
  · decide
  · decide
  · intro r h1 h2 h3
    simp [mergeRejectAlert, h1, h2, h3]
  · intro b r lca hr
    simp [effReason, hr]

theorem claim_C2_witness :
    jsTrim "m" ≠ "" ∧ (["x", "y"] : List String).length = 2 ∧
    eligTruthy (some (Elig.mk false (some "custom_reason") none)) = false ∧
    sendMessageNew none "m" false [] ["x", "y"]
        (some (Elig.mk false (some "custom_reason") none)) none true "gpt" =
      [Evt.alert (mergeRejectAlert (effReason (some (Elig.mk false (some "custom_reason") none))))] :=
  ⟨by decide, by decide, rfl,
    (claim_C2 none "m" ["x", "y"] (some (Elig.mk false (some "custom_reason") none))
      none true "gpt" (by decide) (by decide) rfl).1⟩

/-- C10: on the shared state (selected nodes, eligibility, current node id,
input text — with the newer generation's extra state at its initial values:
no uploads in flight, no pending attachments), the two generations of
`sendMessage` issue the same checkout and merge requests and abort under the
same conditions. -/
theorem claim_C10 (conv : Option String) (input : String) (selected : List String)
    (elig : Option Elig) (current : Option String) (checkoutOk : Bool)
    (modelNew modelOld : String) :
    checkoutMergeReqs (sendMessageNew conv input false [] selected elig current checkoutOk modelNew) =
      checkoutMergeReqs (sendMessageOld conv input selected elig current checkoutOk modelOld) ∧
    (abortedTrace (sendMessageNew conv input false [] selected elig current checkoutOk modelNew) ↔
      abortedTrace (sendMessageOld conv input selected elig current checkoutOk modelOld)) := by
  by_cases hin : jsTrim input = ""
  · simp [sendMessageNew, sendMessageOld, hin]
  · by_cases hlen : selected.length = 2
    · simp [sendMessageNew, sendMessageOld, hin, hlen]
    · constructor
      · simp [sendMessageNew, sendMessageOld, hin, hlen, checkoutMergeReqs]
      · simp only [sendMessageNew, sendMessageOld, if_neg hin, if_neg hlen, if_false]
        constructor
        · intro h
          have := (h (Evt.req (Req.chat input modelNew
            (if ([] : List String).length > 0 then some [] else none) conv)) (by simp)).2
          exact absurd rfl (this input modelNew _ conv)
        · intro h
          have := (h (Evt.req (Req.chat input modelOld none conv)) (by simp)).2
          exact absurd rfl (this input modelOld none conv)

/-! ## Claim C5: streaming chat -/

private lemma foldl_append_hoist (cs : List String) : ∀ a : String,
    cs.foldl (fun r s => r ++ s) a = a ++ cs.foldl (fun r s => r ++ s) "" := by
  induction cs with
  | nil => intro a; simp
  | cons c cs ih =>
    intro a
    simp only [List.foldl_cons]
    rw [ih (a ++ c), ih ("" ++ c)]
    simp [String.append_assoc]

private lemma chatStream_loop (chunks : List String) : ∀ (l : List String) (acc : String),
    (chunks.foldl (fun (st : List String × String) chunk =>
        let assistantResponse := st.2 ++ chunk
        (setLast st.1 ("assistant: " ++ assistantResponse), assistantResponse))
      (l ++ ["assistant: " ++ acc], acc)).1 =
      l ++ ["assistant: " ++ (acc ++ String.join chunks)] := by
  induction chunks with
  | nil => intro l acc; simp [String.join]
  | cons c cs ih =>
    intro l acc
    have hset : setLast (l ++ ["assistant: " ++ acc]) ("assistant: " ++ (acc ++ c)) =
        l ++ ["assistant: " ++ (acc ++ c)] := by
      simp [setLast]
    simp only [List.foldl_cons, hset]
    rw [ih l (acc ++ c)]
    simp only [String.join, List.foldl_cons]
    rw [foldl_append_hoist cs ("" ++ c)]
    simp [String.append_assoc]

/-- C5: after the k-th chunk of a streamed chat response the displayed
history is the optimistic prefix (earlier entries unchanged) followed by a
last entry "assistant: " + concatenation of the first k chunks; the full
stream (and hence any early termination point) leaves the accumulated text
in place rather than discarding it. -/
theorem claim_C5 (prev : List String) (input : String) (chunks : List String) (k : Nat) :
    chatStream prev input (chunks.take k) =
      prev ++ ["user: " ++ input, "assistant: " ++ String.join (chunks.take k)] ∧
    chatStream prev input chunks =
      prev ++ ["user: " ++ input, "assistant: " ++ String.join chunks] := by
  have key : ∀ cs : List String, chatStream prev input cs =
      prev ++ ["user: " ++ input, "assistant: " ++ String.join cs] := by
    intro cs
    have h0 : prev ++ ["user: " ++ input, "assistant: "] =
        (prev ++ ["user: " ++ input]) ++ ["assistant: " ++ ""] := by simp
    unfold chatStream
    rw [h0, chatStream_loop cs (prev ++ ["user: " ++ input]) ""]
    simp
  exact ⟨key _, key _⟩

/-! ## Claim C7: search result click -/

/-- C7: clicking a search result loads the result's conversation first when
it differs from the open one, then checks out the result's node (only the
checkout when it is the same conversation), and in both cases clears the
search query and result list. -/
theorem claim_C7 (cur : Option String) (resultConv resultNode : String) :
    ((some resultConv ≠ cur) →
      (handleSearchResultClick cur resultConv resultNode).1 =
        [Req.loadConversation resultConv, Req.checkout resultNode (some resultConv)]) ∧
    ((some resultConv = cur) →
      (handleSearchResultClick cur resultConv resultNode).1 =
        [Req.checkout resultNode (some resultConv)]) ∧
    (handleSearchResultClick cur resultConv resultNode).2 = ⟨"", []⟩ := by
  refine ⟨fun h => ?_, fun h => ?_, rfl⟩
  · simp [handleSearchResultClick, h]
  · simp [handleSearchResultClick, h]

theorem claim_C7_witness :
    ((some "c1" : Option String) ≠ none ∧
      (handleSearchResultClick none "c1" "n1").1 =
        [Req.loadConversation "c1", Req.checkout "n1" (some "c1")]) ∧
    ((some "c2" : Option String) = some "c2" ∧
      (handleSearchResultClick (some "c2") "c2" "n2").1 =
        [Req.checkout "n2" (some "c2")]) :=
  ⟨⟨by decide, (claim_C7 none "c1" "n1").1 (by decide)⟩,
   ⟨rfl, (claim_C7 (some "c2") "c2" "n2").2.1 rfl⟩⟩

/-! ## Node-map lemmas -/

private lemma mapGet_some (m : List GNode) (k : String) (g : GNode)
    (h : mapGet m k = some g) : g ∈ m ∧ g.id = k := by
  induction m with
  | nil => simp [mapGet] at h
  | cons a m ih =>
    by_cases ha : a.id = k
    · simp only [mapGet, if_pos ha] at h
      cases h
      exact ⟨List.mem_cons_self _ _, ha⟩
    · simp only [mapGet, if_neg ha] at h
      obtain ⟨h1, h2⟩ := ih h
      exact ⟨List.mem_cons_of_mem a h1, h2⟩

private lemma eq_of_mem_id (m : List GNode) (g1 g2 : GNode)
    (hnd : (m.map GNode.id).Nodup) (h1 : g1 ∈ m) (h2 : g2 ∈ m)
    (h : g1.id = g2.id) : g1 = g2 := by
  induction m with
  | nil => cases h1
  | cons a m ih =>
    simp only [List.map_cons, List.nodup_cons] at hnd
    rcases List.mem_cons.mp h1 with rfl | h1' <;>
      rcases List.mem_cons.mp h2 with rfl | h2'
    · rfl
    · exact absurd (h ▸ List.mem_map_of_mem GNode.id h2') hnd.1
    · exact absurd (h ▸ List.mem_map_of_mem GNode.id h1') hnd.1
    · exact ih hnd.2 h1' h2'

private lemma mapGet_of_mem (m : List GNode) (g : GNode)
    (hnd : (m.map GNode.id).Nodup) (hg : g ∈ m) : mapGet m g.id = some g := by
  induction m with
  | nil => cases hg
  | cons a m ih =>
    simp only [List.map_cons, List.nodup_cons] at hnd
    rcases List.mem_cons.mp hg with rfl | hg'
    · simp [mapGet]
    · have hne : a.id ≠ g.id := by
        intro he
        exact hnd.1 (he ▸ List.mem_map_of_mem GNode.id hg')
      simp only [mapGet, if_neg (fun he => hne he)]
      exact ih hnd.2 hg'

private lemma mem_mapRemove (m : List GNode) (k : String) (g : GNode) :
    g ∈ mapRemove m k ↔ g ∈ m ∧ g.id ≠ k := by
  induction m with
  | nil => simp [mapRemove]
  | cons a m ih =>
    by_cases ha : a.id = k
    · simp only [mapRemove, if_pos ha, ih, List.mem_cons]
      constructor
      · rintro ⟨h1, h2⟩; exact ⟨Or.inr h1, h2⟩
      · rintro ⟨h1 | h1, h2⟩
        · exact absurd (h1 ▸ ha) h2
        · exact ⟨h1, h2⟩
    · simp only [mapRemove, if_neg ha, List.mem_cons, ih]
      constructor
      · rintro (rfl | ⟨h1, h2⟩)
        · exact ⟨Or.inl rfl, ha⟩
        · exact ⟨Or.inr h1, h2⟩
      · rintro ⟨rfl | h1, h2⟩
        · exact Or.inl rfl
        · exact Or.inr ⟨h1, h2⟩

private lemma mapUpdate_map (m : List GNode) (k : String) (f : GNode → GNode) :
    mapUpdate m k f = m.map (fun g => if g.id = k then f g else g) := rfl

private lemma mapUpdate_ids (m : List GNode) (k : String) (f : GNode → GNode)
    (hf : ∀ g, (f g).id = g.id) :
    (mapUpdate m k f).map GNode.id = m.map GNode.id := by
  rw [mapUpdate_map, List.map_map]
  apply List.map_congr_left
  intro g _
  by_cases h : g.id = k <;> simp [h, hf]

private lemma foldl_mapUpdate (f : GNode → GNode) (hf : ∀ g, (f g).id = g.id)
    (ks : List String) : ∀ (m : List GNode), ks.Nodup →
    ks.foldl (fun acc k => mapUpdate acc k f) m =
      m.map (fun g => if g.id ∈ ks then f g else g) := by
  induction ks with
  | nil =>
    intro m _
    simp only [List.foldl_nil, List.not_mem_nil, if_false]
    exact (List.map_id' m).symm
  | cons k ks ih =>
    intro m hnd
    have hk : k ∉ ks := (List.nodup_cons.mp hnd).1
    simp only [List.foldl_cons]
    rw [ih (mapUpdate m k f) (List.nodup_cons.mp hnd).2, mapUpdate_map, List.map_map]
    apply List.map_congr_left
    intro g _
    by_cases h1 : g.id = k
    · simp only [Function.comp_apply, if_pos h1, hf, h1, if_neg hk, List.mem_cons,
        true_or, if_pos]
    · by_cases h2 : g.id ∈ ks <;>
        simp [h1, h2]

/-! ## dedupPush lemmas -/

private lemma mem_dedupPush (xs : List String) : ∀ (l : List String) (a : String),
    a ∈ dedupPush l xs ↔ a ∈ l ∨ a ∈ xs := by
  induction xs with
  | nil => intro l a; simp [dedupPush]
  | cons x xs ih =>
    intro l a
    simp only [dedupPush]
    rw [ih]
    by_cases hx : x ∈ l
    · simp only [if_pos hx, List.mem_cons]
      constructor
      · rintro (h | h)
        · exact Or.inl h
        · exact Or.inr (Or.inr h)
      · rintro (h | rfl | h)
        · exact Or.inl h
        · exact Or.inl hx
        · exact Or.inr h
    · simp only [if_neg hx, List.mem_append, List.mem_singleton, List.mem_cons]
      tauto

private lemma nodup_dedupPush (xs : List String) : ∀ (l : List String), l.Nodup →
    (dedupPush l xs).Nodup := by
  induction xs with
  | nil => intro l h; exact h
  | cons x xs ih =>
    intro l h
    simp only [dedupPush]
    by_cases hx : x ∈ l
    · rw [if_pos hx]; exact ih l h
    · rw [if_neg hx]
      exact ih _ (by simp [List.nodup_append, h, hx])

/-! ## Collapse-step characterization and invariant preservation -/

private lemma childRw_id (nid : String) (p : List String) (g : GNode) :
    (childRw nid p g).id = g.id := rfl

private lemma parentRw_id (nid : String) (c : List String) (g : GNode) :
    (parentRw nid c g).id = g.id := rfl

private lemma rwFun_id (nid : String) (f : GNode) (g : GNode) :
    (rwFun nid f g).id = g.id := by
  unfold rwFun
  by_cases h1 : g.id ∈ f.children <;> simp only [h1, if_true, if_false, ite_true, ite_false] <;>
    split <;> rfl

private lemma mapRemove_sublist (m : List GNode) (k : String) :
    (mapRemove m k).Sublist m := by
  induction m with
  | nil => simp [mapRemove]
  | cons a m ih =>
    by_cases ha : a.id = k
    · simpa [mapRemove, ha] using ih.cons a
    · simpa [mapRemove, ha] using ih.cons₂ a

private lemma collapseStep_char (m : List GNode) (nid : String) (f : GNode)
    (hget : mapGet m nid = some f) (hmark : isForkMarker f = true)
    (hPnd : f.parents.Nodup) (hCnd : f.children.Nodup) :
    collapseStep m nid = mapRemove (m.map (rwFun nid f)) nid := by
  unfold collapseStep
  rw [hget]
  simp only [hmark, if_true]
  rw [foldl_mapUpdate (childRw nid f.parents) (childRw_id nid f.parents) f.children m hCnd]
  rw [foldl_mapUpdate (parentRw nid f.children) (parentRw_id nid f.children) f.parents _ hPnd]
  rw [List.map_map]
  rfl

private lemma rwFun_child (nid : String) (f g : GNode) (hg : g.id ∈ f.children)
    (hnp : g.id ∉ f.parents) : rwFun nid f g = childRw nid f.parents g := by
  unfold rwFun
  simp only [if_pos hg, childRw_id]
  rw [if_neg hnp]

private lemma rwFun_parent (nid : String) (f g : GNode) (hg : g.id ∈ f.parents)
    (hnc : g.id ∉ f.children) : rwFun nid f g = parentRw nid f.children g := by
  unfold rwFun
  simp only [if_neg hnc]
  rw [if_pos hg]

private lemma rwFun_other (nid : String) (f g : GNode) (h1 : g.id ∉ f.children)
    (h2 : g.id ∉ f.parents) : rwFun nid f g = g := by
  unfold rwFun
  simp only [if_neg h1]
  rw [if_neg h2]

private lemma collapseStep_inv (R : String → String → Prop)
    (hT : Transitive R) (hI : Irreflexive R) (m : List GNode) (nid : String)
    (h : GraphInv R m) : GraphInv R (collapseStep m nid) := by
  cases hget : mapGet m nid with
  | none =>
    unfold collapseStep
    rw [hget]
    exact h
  | some f =>
    by_cases hmark : isForkMarker f = true
    case neg =>
      unfold collapseStep
      rw [hget]
      simp only [hmark, if_false, Bool.false_eq_true]
      exact h
    case pos =>
      obtain ⟨hfm, hfid⟩ := mapGet_some m nid f hget
      have hPnd := h.parNodup f hfm
      have hCnd := h.chiNodup f hfm
      have hnidP : nid ∉ f.parents := by
        intro hin
        have hr := h.parR f hfm nid hin
        rw [hfid] at hr
        exact hI nid hr
      have hnidC : nid ∉ f.children := by
        intro hin
        obtain ⟨cg, hcg, hcgid, hcgpar⟩ := h.chiMem f hfm nid hin
        have hcge : cg = f := eq_of_mem_id m cg f h.nodupIds hcg hfm (by rw [hcgid, hfid])
        subst hcge
        exact hnidP (hfid ▸ hcgpar)
      have hdisj : ∀ x, x ∈ f.children → x ∈ f.parents → False := by
        intro x hxc hxp
        obtain ⟨cg, hcg, hcgid, hcgpar⟩ := h.chiMem f hfm x hxc
        have h1 : R f.id cg.id := h.parR cg hcg f.id hcgpar
        rw [hcgid] at h1
        have h2 : R x f.id := h.parR f hfm x hxp
        exact hI x (hT h2 h1)
      have hres : collapseStep m nid = mapRemove (m.map (rwFun nid f)) nid :=
        collapseStep_char m nid f hget hmark hPnd hCnd
      -- per-case effect of the rewiring on a map entry
      have hA : ∀ g : GNode, g.id ∈ f.children →
          (rwFun nid f g).parents =
            dedupPush (g.parents.filter (fun i => decide (i ≠ nid))) f.parents ∧
          (rwFun nid f g).children = g.children := by
        intro g hg
        rw [rwFun_child nid f g hg (fun hp => hdisj g.id hg hp)]
        exact ⟨rfl, rfl⟩
      have hB : ∀ g : GNode, g.id ∈ f.parents →
          (rwFun nid f g).parents = g.parents ∧
          (rwFun nid f g).children =
            dedupPush (g.children.filter (fun i => decide (i ≠ nid))) f.children := by
        intro g hg
        rw [rwFun_parent nid f g hg (fun hc => hdisj g.id hc hg)]
        exact ⟨rfl, rfl⟩
      have hpar_pres : ∀ (g : GNode) (x : String), x ∈ g.parents → x ≠ nid →
          x ∈ (rwFun nid f g).parents := by
        intro g x hx hxne
        by_cases h1 : g.id ∈ f.children
        · rw [(hA g h1).1, mem_dedupPush]
          exact Or.inl (List.mem_filter.mpr ⟨hx, by simp [hxne]⟩)
        · by_cases h2 : g.id ∈ f.parents
          · rw [(hB g h2).1]; exact hx
          · rw [rwFun_other nid f g h1 h2]; exact hx
      have hchi_pres : ∀ (g : GNode) (x : String), x ∈ g.children → x ≠ nid →
          x ∈ (rwFun nid f g).children := by
        intro g x hx hxne
        by_cases h2 : g.id ∈ f.parents
        · rw [(hB g h2).2, mem_dedupPush]
          exact Or.inl (List.mem_filter.mpr ⟨hx, by simp [hxne]⟩)
        · by_cases h1 : g.id ∈ f.children
          · rw [(hA g h1).2]; exact hx
          · rw [rwFun_other nid f g h1 h2]; exact hx
      have hpar_new : ∀ g : GNode, g.id ∈ f.children → ∀ p ∈ f.parents,
          p ∈ (rwFun nid f g).parents := by
        intro g hg p hp
        rw [(hA g hg).1, mem_dedupPush]
        exact Or.inr hp
      have hchi_new : ∀ g : GNode, g.id ∈ f.parents → ∀ c ∈ f.children,
          c ∈ (rwFun nid f g).children := by
        intro g hg c hc
        rw [(hB g hg).2, mem_dedupPush]
        exact Or.inr hc
      have hpar_back : ∀ g ∈ m, ∀ x, x ∈ (rwFun nid f g).parents →
          (x ∈ g.parents ∧ x ≠ nid) ∨ (x ∈ f.parents ∧ g.id ∈ f.children) := by
        intro g hgm x hx
        by_cases h1 : g.id ∈ f.children
        · rw [(hA g h1).1, mem_dedupPush] at hx
          rcases hx with hx | hx
          · have hx' := List.mem_filter.mp hx
            exact Or.inl ⟨hx'.1, by simpa using hx'.2⟩
          · exact Or.inr ⟨hx, h1⟩
        · have hxg : x ∈ g.parents := by
            by_cases h2 : g.id ∈ f.parents
            · rwa [(hB g h2).1] at hx
            · rwa [rwFun_other nid f g h1 h2] at hx
          refine Or.inl ⟨hxg, fun hxe => ?_⟩
          subst hxe
          obtain ⟨pg, hpg, hpgid, hgin⟩ := h.parMem g hgm x hxg
          have hpge : pg = f := eq_of_mem_id m pg f h.nodupIds hpg hfm (by rw [hpgid, hfid])
          subst hpge
          exact h1 hgin
      have hchi_back : ∀ g ∈ m, ∀ x, x ∈ (rwFun nid f g).children →
          (x ∈ g.children ∧ x ≠ nid) ∨ (x ∈ f.children ∧ g.id ∈ f.parents) := by
        intro g hgm x hx
        by_cases h2 : g.id ∈ f.parents
        · rw [(hB g h2).2, mem_dedupPush] at hx
          rcases hx with hx | hx
          · have hx' := List.mem_filter.mp hx
            exact Or.inl ⟨hx'.1, by simpa using hx'.2⟩
          · exact Or.inr ⟨hx, h2⟩
        · have hxg : x ∈ g.children := by
            by_cases h1 : g.id ∈ f.children
            · rwa [(hA g h1).2] at hx
            · rwa [rwFun_other nid f g h1 h2] at hx
          refine Or.inl ⟨hxg, fun hxe => ?_⟩
          subst hxe
          obtain ⟨cg, hcg, hcgid, hgin⟩ := h.chiMem g hgm x hxg
          have hcge : cg = f := eq_of_mem_id m cg f h.nodupIds hcg hfm (by rw [hcgid, hfid])
          subst hcge
          exact h2 hgin
      have hmemF : ∀ g ∈ m, g.id ≠ nid → rwFun nid f g ∈ collapseStep m nid := by
        intro g hg hne
        rw [hres, mem_mapRemove]
        exact ⟨List.mem_map_of_mem _ hg, by rw [rwFun_id]; exact hne⟩
      have hmemB : ∀ g' ∈ collapseStep m nid, ∃ g, g ∈ m ∧ g.id ≠ nid ∧ g' = rwFun nid f g := by
        intro g' hg'
        rw [hres, mem_mapRemove] at hg'
        obtain ⟨hmap, hne⟩ := hg'
        obtain ⟨g, hg, rfl⟩ := List.mem_map.mp hmap
        exact ⟨g, hg, by rwa [rwFun_id] at hne, rfl⟩
      constructor
      -- nodupIds
      · rw [hres]
        apply List.Nodup.sublist ((mapRemove_sublist _ _).map GNode.id)
        rw [List.map_map]
        have he : m.map (GNode.id ∘ rwFun nid f) = m.map GNode.id :=
          List.map_congr_left (fun g _ => rwFun_id nid f g)
        rw [he]
        exact h.nodupIds
      -- parNodup
      · intro g' hg'
        obtain ⟨g, hgm, _, rfl⟩ := hmemB g' hg'
        by_cases h1 : g.id ∈ f.children
        · rw [(hA g h1).1]
          exact nodup_dedupPush _ _ ((h.parNodup g hgm).filter _)
        · by_cases h2 : g.id ∈ f.parents
          · rw [(hB g h2).1]; exact h.parNodup g hgm
          · rw [rwFun_other nid f g h1 h2]; exact h.parNodup g hgm
      -- chiNodup
      · intro g' hg'
        obtain ⟨g, hgm, _, rfl⟩ := hmemB g' hg'
        by_cases h2 : g.id ∈ f.parents
        · rw [(hB g h2).2]
          exact nodup_dedupPush _ _ ((h.chiNodup g hgm).filter _)
        · by_cases h1 : g.id ∈ f.children
          · rw [(hA g h1).2]; exact h.chiNodup g hgm
          · rw [rwFun_other nid f g h1 h2]; exact h.chiNodup g hgm
      -- parMem
      · intro g' hg' p hp
        obtain ⟨g, hgm, hgne, rfl⟩ := hmemB g' hg'
        rcases hpar_back g hgm p hp with ⟨hpg, hpne⟩ | ⟨hpf, hgC⟩
        · obtain ⟨pg, hpgm, hpgid, hgin⟩ := h.parMem g hgm p hpg
          refine ⟨rwFun nid f pg, hmemF pg hpgm (hpgid ▸ hpne), ?_, ?_⟩
          · rw [rwFun_id]; exact hpgid
          · rw [rwFun_id]
            exact hchi_pres pg g.id hgin hgne
        · obtain ⟨pg, hpgm, hpgid, _⟩ := h.parMem f hfm p hpf
          have hpne : p ≠ nid := fun he => hnidP (he ▸ hpf)
          refine ⟨rwFun nid f pg, hmemF pg hpgm (hpgid ▸ hpne), ?_, ?_⟩
          · rw [rwFun_id]; exact hpgid
          · rw [rwFun_id]
            exact hchi_new pg (hpgid ▸ hpf) g.id hgC
      -- parR
      · intro g' hg' p hp
        obtain ⟨g, hgm, _, rfl⟩ := hmemB g' hg'
        rw [rwFun_id]
        rcases hpar_back g hgm p hp with ⟨hpg, _⟩ | ⟨hpf, hgC⟩
        · exact h.parR g hgm p hpg
        · have h1 : R p f.id := h.parR f hfm p hpf
          obtain ⟨cg, hcgm, hcgid, hcgpar⟩ := h.chiMem f hfm g.id hgC
          have hcge : cg = g := eq_of_mem_id m cg g h.nodupIds hcgm hgm hcgid
          subst hcge
          exact hT h1 (h.parR cg hgm f.id hcgpar)
      -- chiMem
      · intro g' hg' c hc
        obtain ⟨g, hgm, hgne, rfl⟩ := hmemB g' hg'
        rcases hchi_back g hgm c hc with ⟨hcg, hcne⟩ | ⟨hcf, hgP⟩
        · obtain ⟨cg, hcgm, hcgid, hgin⟩ := h.chiMem g hgm c hcg
          refine ⟨rwFun nid f cg, hmemF cg hcgm (hcgid ▸ hcne), ?_, ?_⟩
          · rw [rwFun_id]; exact hcgid
          · rw [rwFun_id]
            exact hpar_pres cg g.id hgin hgne
        · obtain ⟨cg, hcgm, hcgid, _⟩ := h.chiMem f hfm c hcf
          have hcne : c ≠ nid := fun he => hnidC (he ▸ hcf)
          refine ⟨rwFun nid f cg, hmemF cg hcgm (hcgid ▸ hcne), ?_, ?_⟩
          · rw [rwFun_id]; exact hcgid
          · rw [rwFun_id]
            exact hpar_new cg (hcgid ▸ hcf) g.id hgP

/-! ## Shape lemmas: every pass rewrites entries in place (ids, roles and
contents unchanged) or deletes them -/

/-- Field-preservation predicate for entry rewrites. -/
def PreservesHdr (F : GNode → GNode) : Prop :=
  ∀ g, (F g).id = g.id ∧ (F g).role = g.role ∧ (F g).content = g.content

private lemma preservesHdr_id : PreservesHdr id := fun _ => ⟨rfl, rfl, rfl⟩

private lemma preservesHdr_comp {F G : GNode → GNode} (hF : PreservesHdr F)
    (hG : PreservesHdr G) : PreservesHdr (F ∘ G) := by
  intro g
  obtain ⟨h1, h2, h3⟩ := hG g
  obtain ⟨h4, h5, h6⟩ := hF (G g)
  exact ⟨h4.trans h1, h5.trans h2, h6.trans h3⟩

private lemma foldl_mapUpdate_shape (f : GNode → GNode) (hf : PreservesHdr f)
    (ks : List String) : ∀ m : List GNode, ∃ F : GNode → GNode,
    PreservesHdr F ∧ ks.foldl (fun acc k => mapUpdate acc k f) m = m.map F := by
  induction ks with
  | nil =>
    intro m
    exact ⟨id, preservesHdr_id, (List.map_id' m).symm⟩
  | cons k ks ih =>
    intro m
    obtain ⟨F, hFp, hFe⟩ := ih (mapUpdate m k f)
    refine ⟨F ∘ (fun g => if g.id = k then f g else g), ?_, ?_⟩
    · apply preservesHdr_comp hFp
      intro g
      by_cases h : g.id = k <;> simp [h, hf g]
    · rw [List.foldl_cons, hFe, mapUpdate_map, List.map_map]

private lemma populate_shape (todo : List RawNode) : ∀ m : List GNode,
    ∃ F : GNode → GNode, PreservesHdr F ∧ todo.foldl populateChildren m = m.map F := by
  induction todo with
  | nil =>
    intro m
    exact ⟨id, preservesHdr_id, (List.map_id' m).symm⟩
  | cons x todo ih =>
    intro m
    obtain ⟨F1, hF1p, hF1e⟩ := foldl_mapUpdate_shape
      (fun g => { g with children := g.children ++ [x.id] }) (fun _ => ⟨rfl, rfl, rfl⟩)
      x.effParents m
    obtain ⟨F2, hF2p, hF2e⟩ := ih (populateChildren m x)
    refine ⟨F2 ∘ F1, preservesHdr_comp hF2p hF1p, ?_⟩
    rw [List.foldl_cons, hF2e]
    unfold populateChildren
    rw [hF1e, List.map_map]

private lemma collapseStep_shape (m : List GNode) (nid : String) :
    (collapseStep m nid = m ∧
      (mapGet m nid = none ∨ ∃ f, mapGet m nid = some f ∧ isForkMarker f = false)) ∨
    (∃ F : GNode → GNode, PreservesHdr F ∧
      collapseStep m nid = mapRemove (m.map F) nid ∧
      ∃ f, mapGet m nid = some f ∧ isForkMarker f = true) := by
  cases hget : mapGet m nid with
  | none =>
    left
    constructor
    · unfold collapseStep; rw [hget]
    · exact Or.inl rfl
  | some f =>
    by_cases hmark : isForkMarker f = true
    · right
      obtain ⟨F1, hF1p, hF1e⟩ := foldl_mapUpdate_shape (childRw nid f.parents)
        (fun _ => ⟨rfl, rfl, rfl⟩) f.children m
      obtain ⟨F2, hF2p, hF2e⟩ := foldl_mapUpdate_shape (parentRw nid f.children)
        (fun _ => ⟨rfl, rfl, rfl⟩) f.parents (m.map F1)
      refine ⟨F2 ∘ F1, preservesHdr_comp hF2p hF1p, ?_, f, rfl, hmark⟩
      unfold collapseStep
      rw [hget]
      simp only [hmark, if_true]
      rw [hF1e, hF2e, List.map_map]
    · left
      constructor
      · unfold collapseStep
        rw [hget]
        simp only [hmark, if_false, Bool.false_eq_true]
      · exact Or.inr ⟨f, rfl, Bool.eq_false_iff.mpr hmark⟩

private lemma collapseStep_nodup (m : List GNode) (nid : String)
    (h : (m.map GNode.id).Nodup) : ((collapseStep m nid).map GNode.id).Nodup := by
  rcases collapseStep_shape m nid with ⟨he, _⟩ | ⟨F, hFp, he, _⟩
  · rwa [he]
  · rw [he]
    apply List.Nodup.sublist ((mapRemove_sublist _ _).map GNode.id)
    rw [List.map_map]
    have : m.map (GNode.id ∘ F) = m.map GNode.id :=
      List.map_congr_left (fun g _ => (hFp g).1)
    rwa [this]

private lemma collapse_fold_nodup (ks : List String) : ∀ m : List GNode,
    (m.map GNode.id).Nodup → ((ks.foldl collapseStep m).map GNode.id).Nodup := by
  induction ks with
  | nil => intro m h; exact h
  | cons k ks ih => intro m h; exact ih _ (collapseStep_nodup m k h)

private lemma collapseStep_src (m : List GNode) (nid : String) :
    ∀ g' ∈ collapseStep m nid,
      ∃ g ∈ m, g'.id = g.id ∧ g'.role = g.role ∧ g'.content = g.content := by
  intro g' hg'
  rcases collapseStep_shape m nid with ⟨he, _⟩ | ⟨F, hFp, he, _⟩
  · rw [he] at hg'
    exact ⟨g', hg', rfl, rfl, rfl⟩
  · rw [he, mem_mapRemove] at hg'
    obtain ⟨g, hg, rfl⟩ := List.mem_map.mp hg'.1
    obtain ⟨h1, h2, h3⟩ := hFp g
    exact ⟨g, hg, h1, h2, h3⟩

private lemma collapse_fold_src (ks : List String) : ∀ (m : List GNode),
    ∀ g' ∈ ks.foldl collapseStep m,
      ∃ g ∈ m, g'.id = g.id ∧ g'.role = g.role ∧ g'.content = g.content := by
  induction ks with
  | nil => intro m g' hg'; exact ⟨g', hg', rfl, rfl, rfl⟩
  | cons k ks ih =>
    intro m g' hg'
    obtain ⟨g1, hg1, e1, e2, e3⟩ := ih (collapseStep m k) g' hg'
    obtain ⟨g, hg, e4, e5, e6⟩ := collapseStep_src m k g1 hg1
    exact ⟨g, hg, e1.trans e4, e2.trans e5, e3.trans e6⟩

private lemma mapGet_none (m : List GNode) (k : String) (h : mapGet m k = none) :
    ∀ g ∈ m, g.id ≠ k := by
  induction m with
  | nil => intro g hg; cases hg
  | cons a m ih =>
    by_cases ha : a.id = k
    · simp [mapGet, ha] at h
    · simp only [mapGet, if_neg ha] at h
      intro g hg
      rcases List.mem_cons.mp hg with rfl | hg'
      · exact ha
      · exact ih h g hg'

private lemma isForkMarker_congr (g1 g2 : GNode) (hr : g1.role = g2.role)
    (hc : g1.content = g2.content) : isForkMarker g1 = isForkMarker g2 := by
  unfold isForkMarker
  rw [hr, hc]

private lemma collapse_fold_survivors (ks : List String) : ∀ (m : List GNode),
    (m.map GNode.id).Nodup → ∀ g ∈ m,
    ((∃ g' ∈ ks.foldl collapseStep m, g'.id = g.id) ↔
      ¬(g.id ∈ ks ∧ isForkMarker g = true)) := by
  induction ks with
  | nil =>
    intro m _ g hg
    simp only [List.foldl_nil, List.not_mem_nil, false_and, not_false_iff, iff_true]
    exact ⟨g, hg, rfl⟩
  | cons k ks ih =>
    intro m hnd g hg
    simp only [List.foldl_cons]
    rcases collapseStep_shape m k with ⟨he, hno⟩ | ⟨F, hFp, he, f, hgetf, hmarkf⟩
    · rw [he]
      rw [ih m hnd g hg]
      by_cases hgk : g.id = k
      · have hmk : isForkMarker g = false := by
          rcases hno with hnone | ⟨f, hget, hfm⟩
          · exact absurd hgk (mapGet_none m k hnone g hg)
          · obtain ⟨hfmem, hfid⟩ := mapGet_some m k f hget
            have : g = f := eq_of_mem_id m g f hnd hg hfmem (by rw [hgk, hfid])
            rw [this]; exact hfm
        simp [hmk]
      · simp [List.mem_cons, hgk]
    · rw [he]
      by_cases hgk : g.id = k
      · -- g is the deleted fork node: it never reappears
        obtain ⟨hfmem, hfid⟩ := mapGet_some m k f hgetf
        have hgf : g = f := eq_of_mem_id m g f hnd hg hfmem (by rw [hgk, hfid])
        have hmk : isForkMarker g = true := by rw [hgf]; exact hmarkf
        simp only [hgk, List.mem_cons, true_or, hmk, and_true, not_true, iff_false]
        rintro ⟨g', hg', hid⟩
        obtain ⟨g1, hg1, e1, _, _⟩ := collapse_fold_src ks _ g' hg'
        rw [mem_mapRemove] at hg1
        exact hg1.2 (by rw [← e1, hid])
      · -- g survives the step as F g; apply the induction hypothesis
        have hFg : F g ∈ mapRemove (m.map F) k := by
          rw [mem_mapRemove]
          exact ⟨List.mem_map_of_mem F hg, by rw [(hFp g).1]; exact hgk⟩
        have hnd' : ((mapRemove (m.map F) k).map GNode.id).Nodup := by
          apply List.Nodup.sublist ((mapRemove_sublist _ _).map GNode.id)
          rw [List.map_map]
          have : m.map (GNode.id ∘ F) = m.map GNode.id :=
            List.map_congr_left (fun g _ => (hFp g).1)
          rwa [this]
        have := ih (mapRemove (m.map F) k) hnd' (F g) hFg
        rw [(hFp g).1, isForkMarker_congr (F g) g (hFp g).2.1 (hFp g).2.2] at this
        rw [this]
        simp [List.mem_cons, hgk]

/-! ## Build/populate characterization -/

private lemma mapHas_iff (m : List GNode) (k : String) :
    mapHas m k = true ↔ ∃ g ∈ m, g.id = k := by
  induction m with
  | nil => simp [mapHas]
  | cons a m ih =>
    by_cases ha : a.id = k
    · simp [mapHas, ha]
    · simp only [mapHas, if_neg ha, ih]
      constructor
      · rintro ⟨g, hg, he⟩
        exact ⟨g, List.mem_cons_of_mem a hg, he⟩
      · rintro ⟨g, hg, he⟩
        rcases List.mem_cons.mp hg with rfl | hg'
        · exact absurd he ha
        · exact ⟨g, hg', he⟩

private lemma buildMap_go (data : List RawNode) : ∀ (m : List GNode),
    (∀ n ∈ data, ∀ g ∈ m, g.id ≠ n.id) → (data.map RawNode.id).Nodup →
    data.foldl (fun m n => mapSet m n.toG) m = m ++ data.map RawNode.toG := by
  induction data with
  | nil => intro m _ _; simp
  | cons n ds ih =>
    intro m hdisj hnd
    simp only [List.map_cons, List.nodup_cons] at hnd
    simp only [List.foldl_cons]
    have h1 : mapHas m n.toG.id = false := by
      rw [Bool.eq_false_iff]
      intro hh
      obtain ⟨g, hg, he⟩ := (mapHas_iff m _).mp hh
      exact hdisj n (List.mem_cons_self _ _) g hg he
    have hstep : mapSet m n.toG = m ++ [n.toG] := by
      unfold mapSet
      rw [h1]
      simp
    rw [hstep, ih (m ++ [n.toG]) ?_ hnd.2]
    · simp
    · intro x hx g hg
      rcases List.mem_append.mp hg with hgm | hgn
      · exact hdisj x (List.mem_cons_of_mem n hx) g hgm
      · have hge : g = n.toG := by simpa using hgn
        rw [hge]
        intro he
        have hxm : n.id ∈ ds.map RawNode.id := by
          rw [show n.id = x.id from he]
          exact List.mem_map_of_mem RawNode.id hx
        exact hnd.1 hxm

private lemma buildMap_eq (data : List RawNode) (hids : (data.map RawNode.id).Nodup) :
    buildMap data = data.map RawNode.toG := by
  have := buildMap_go data [] (fun _ _ g hg => absurd hg (List.not_mem_nil g)) hids
  simpa [buildMap] using this

private lemma mem_mapSet (m : List GNode) (x g : GNode) (h : g ∈ mapSet m x) :
    g ∈ m ∨ g = x := by
  unfold mapSet at h
  by_cases hh : mapHas m x.id = true
  · rw [if_pos hh] at h
    unfold mapUpdate at h
    obtain ⟨g0, hg0, he⟩ := List.mem_map.mp h
    by_cases h0 : g0.id = x.id
    · rw [if_pos h0] at he
      exact Or.inr he.symm
    · rw [if_neg h0] at he
      exact Or.inl (he ▸ hg0)
  · rw [if_neg hh] at h
    rcases List.mem_append.mp h with h' | h'
    · exact Or.inl h'
    · exact Or.inr (by simpa using h')

private lemma buildMap_src (data : List RawNode) : ∀ m : List GNode,
    ∀ g ∈ data.foldl (fun m n => mapSet m n.toG) m, g ∈ m ∨ ∃ n ∈ data, g = n.toG := by
  induction data with
  | nil => intro m g hg; exact Or.inl hg
  | cons n ds ih =>
    intro m g hg
    rcases ih (mapSet m n.toG) g hg with h | ⟨x, hx, he⟩
    · rcases mem_mapSet m n.toG g h with h' | h'
      · exact Or.inl h'
      · exact Or.inr ⟨n, List.mem_cons_self _ _, h'⟩
    · exact Or.inr ⟨x, List.mem_cons_of_mem n hx, he⟩

private lemma includesFork_ne_empty (s : String) (h : includesFork s = true) : s ≠ "" := by
  intro he
  subst he
  exact absurd h (by decide)

private lemma isForkMarker_toG (n : RawNode) :
    isForkMarker n.toG = true ↔ (n.role = "system" ∧ includesFork n.content = true) := by
  unfold isForkMarker RawNode.toG
  simp only [Bool.and_eq_true, beq_iff_eq, bne_iff_ne]
  constructor
  · rintro ⟨⟨h1, _⟩, h3⟩
    exact ⟨h1, h3⟩
  · rintro ⟨h1, h3⟩
    exact ⟨⟨h1, includesFork_ne_empty _ h3⟩, h3⟩

/-! ## Claim C3: fork-marker collapse predicate -/

/-- C3 is refuted as literally stated: `dataC3` holds a single system node
whose content merely CONTAINS "<FORK>" (it is "x<FORK>", not exactly the
payload "<FORK>"), yet the collapse pass removes it from the displayed
graph. -/
theorem claim_C3_counterexample :
    (∀ n ∈ dataC3, ¬(n.role = "system" ∧ n.content = "<FORK>")) ∧
    ¬((∃ g ∈ flowPrep dataC3, g.id = "a") ↔
      ¬(∃ n ∈ dataC3, n.id = "a" ∧ n.role = "system" ∧ n.content = "<FORK>")) := by
  decide

/-- C3 (amended): in the collapse pass a node is removed from the displayed
graph iff its role is "system" and its content CONTAINS the substring
"<FORK>" (JS `includes`), not only when the content is exactly "<FORK>";
every node failing that test keeps its entry. -/
theorem claim_C3 (data : List RawNode) (hids : (data.map RawNode.id).Nodup)
    (n : RawNode) (hn : n ∈ data) :
    (∃ g ∈ flowPrep data, g.id = n.id) ↔
      ¬(n.role = "system" ∧ includesFork n.content = true) := by
  obtain ⟨F, hFp, hFe⟩ := populate_shape data (data.map RawNode.toG)
  have hbm : buildMap data = data.map RawNode.toG := buildMap_eq data hids
  have hm1 : data.foldl populateChildren (buildMap data) = (data.map RawNode.toG).map F := by
    rw [hbm, hFe]
  have hnd1 : ((data.foldl populateChildren (buildMap data)).map GNode.id).Nodup := by
    rw [hm1, List.map_map, List.map_map]
    have he : data.map ((GNode.id ∘ F) ∘ RawNode.toG) = data.map RawNode.id :=
      List.map_congr_left (fun x _ => (hFp x.toG).1)
    rw [he]
    exact hids
  have hgmem : F n.toG ∈ data.foldl populateChildren (buildMap data) := by
    rw [hm1]
    exact List.mem_map_of_mem F (List.mem_map_of_mem RawNode.toG hn)
  have hsurv := collapse_fold_survivors
    ((data.foldl populateChildren (buildMap data)).map (fun g => g.id))
    (data.foldl populateChildren (buildMap data)) hnd1 (F n.toG) hgmem
  have hflow : flowPrep data =
      ((data.foldl populateChildren (buildMap data)).map (fun g => g.id)).foldl collapseStep
        (data.foldl populateChildren (buildMap data)) := rfl
  have hidn : (F n.toG).id = n.id := (hFp n.toG).1
  have hmemid : n.id ∈
      (data.foldl populateChildren (buildMap data)).map (fun g => g.id) :=
    hidn ▸ List.mem_map_of_mem (fun g => g.id) hgmem
  have hmarker : isForkMarker (F n.toG) = isForkMarker n.toG :=
    isForkMarker_congr _ _ (hFp n.toG).2.1 (hFp n.toG).2.2
  rw [hidn, hmarker] at hsurv
  rw [hflow, hsurv]
  simp only [hmemid, true_and]
  exact not_congr (isForkMarker_toG n)

theorem claim_C3_witness :
    ((dataW.map RawNode.id).Nodup ∧
      RawNode.mk "f" "system" "<FORK>" (some ["r"]) none ∈ dataW) ∧
    ((∃ g ∈ flowPrep dataW, g.id = "f") ↔
      ¬(("system" : String) = "system" ∧ includesFork "<FORK>" = true)) :=
  ⟨⟨by decide, by decide⟩,
    claim_C3 dataW (by decide) (RawNode.mk "f" "system" "<FORK>" (some ["r"]) none) (by decide)⟩

/-! ## Claim C4: the collapse pass preserves the graph invariants -/

private lemma populate_go (todo : List RawNode) : ∀ (m : List GNode),
    (∀ x ∈ todo, x.effParents.Nodup) →
    todo.foldl populateChildren m =
      m.map (fun g => { g with children :=
        g.children ++ (todo.filter (fun x => decide (g.id ∈ x.effParents))).map RawNode.id }) := by
  induction todo with
  | nil =>
    intro m _
    simp only [List.foldl_nil, List.filter_nil, List.map_nil, List.append_nil]
    exact (List.map_id' m).symm
  | cons x todo ih =>
    intro m hpar
    have hx : x.effParents.Nodup := hpar x (List.mem_cons_self _ _)
    have hstep : populateChildren m x =
        m.map (fun g => if g.id ∈ x.effParents
          then { g with children := g.children ++ [x.id] } else g) := by
      unfold populateChildren
      exact foldl_mapUpdate (fun g => { g with children := g.children ++ [x.id] })
        (fun g => rfl) x.effParents m hx
    rw [List.foldl_cons, hstep, ih _ (fun y hy => hpar y (List.mem_cons_of_mem x hy)),
      List.map_map]
    apply List.map_congr_left
    intro g _
    by_cases hg : g.id ∈ x.effParents
    · simp [Function.comp_apply, if_pos hg, List.filter_cons, hg, List.append_assoc]
    · simp [Function.comp_apply, if_neg hg, List.filter_cons, hg]

private lemma initialMap_eq (data : List RawNode) (hids : (data.map RawNode.id).Nodup)
    (hpar : ∀ x ∈ data, x.effParents.Nodup) :
    data.foldl populateChildren (buildMap data) = initialMap data := by
  rw [buildMap_eq data hids, populate_go data _ hpar, List.map_map]
  apply List.map_congr_left
  intro n _
  simp only [Function.comp_apply, RawNode.toG, initialMap, List.nil_append]

private lemma initialMap_ids (data : List RawNode) :
    (initialMap data).map GNode.id = data.map RawNode.id := by
  unfold initialMap
  rw [List.map_map]
  exact List.map_congr_left (fun n _ => rfl)

private lemma flowPrep_eq (data : List RawNode) (hids : (data.map RawNode.id).Nodup)
    (hpar : ∀ x ∈ data, x.effParents.Nodup) :
    flowPrep data =
      ((initialMap data).map (fun g => g.id)).foldl collapseStep (initialMap data) := by
  show ((data.foldl populateChildren (buildMap data)).map (fun g => g.id)).foldl collapseStep
      (data.foldl populateChildren (buildMap data)) = _
  rw [initialMap_eq data hids hpar]

private lemma initialMap_inv (data : List RawNode) (hids : (data.map RawNode.id).Nodup)
    (hpar : ∀ x ∈ data, x.effParents.Nodup) (hclosed : ParentClosed data) :
    GraphInv (origReach data) (initialMap data) := by
  constructor
  · rw [initialMap_ids]
    exact hids
  · intro g hg
    obtain ⟨n, hn, rfl⟩ := List.mem_map.mp hg
    exact hpar n hn
  · intro g hg
    obtain ⟨n, hn, rfl⟩ := List.mem_map.mp hg
    exact List.Nodup.sublist ((List.filter_sublist data).map RawNode.id) hids
  · intro g hg p hp
    obtain ⟨n, hn, rfl⟩ := List.mem_map.mp hg
    obtain ⟨q, hq, hqid⟩ := hclosed n hn p hp
    refine ⟨_, List.mem_map_of_mem _ hq, hqid, ?_⟩
    exact List.mem_map.mpr ⟨n, List.mem_filter.mpr ⟨hn, by rw [hqid]; exact decide_eq_true hp⟩, rfl⟩
  · intro g hg p hp
    obtain ⟨n, hn, rfl⟩ := List.mem_map.mp hg
    exact Relation.TransGen.single ⟨n, hn, rfl, hp⟩
  · intro g hg c hc
    obtain ⟨n, hn, rfl⟩ := List.mem_map.mp hg
    obtain ⟨x, hxf, rfl⟩ := List.mem_map.mp hc
    have hxd := List.mem_filter.mp hxf
    exact ⟨_, List.mem_map_of_mem _ hxd.1, rfl, of_decide_eq_true hxd.2⟩

private lemma foldl_collapse_inv (R : String → String → Prop) (hT : Transitive R)
    (hI : Irreflexive R) (ks : List String) : ∀ m : List GNode,
    GraphInv R m → GraphInv R (ks.foldl collapseStep m) := by
  induction ks with
  | nil => intro m h; exact h
  | cons k ks ih => intro m h; exact ih _ (collapseStep_inv R hT hI m k h)

private lemma transGen_of_trans (r : String → String → Prop) (hT : Transitive r)
    {a b : String} (h : Relation.TransGen r a b) : r a b := by
  induction h with
  | single h1 => exact h1
  | tail _ h2 ih => exact hT ih h2

private lemma collapseStep_childEffect (R : String → String → Prop)
    (hT : Transitive R) (hI : Irreflexive R) (m : List GNode) (nid : String)
    (f c : GNode) (cid : String) (h : GraphInv R m)
    (hget : mapGet m nid = some f) (hmark : isForkMarker f = true)
    (hcid : cid ∈ f.children) (hcne : cid ≠ nid) (hc : mapGet m cid = some c) :
    mapGet (collapseStep m nid) cid =
      some { c with parents := dedupPush (c.parents.filter (fun i => i ≠ nid)) f.parents } := by
  obtain ⟨hfm, hfid⟩ := mapGet_some m nid f hget
  obtain ⟨hcm, hcidq⟩ := mapGet_some m cid c hc
  have hdisj : ∀ x, x ∈ f.children → x ∈ f.parents → False := by
    intro x hxc hxp
    obtain ⟨cg, hcg, hcgid, hcgpar⟩ := h.chiMem f hfm x hxc
    have h1 : R f.id cg.id := h.parR cg hcg f.id hcgpar
    rw [hcgid] at h1
    have h2 : R x f.id := h.parR f hfm x hxp
    exact hI x (hT h2 h1)
  have step_inv := collapseStep_inv R hT hI m nid h
  have hres : collapseStep m nid = mapRemove (m.map (rwFun nid f)) nid :=
    collapseStep_char m nid f hget hmark (h.parNodup f hfm) (h.chiNodup f hfm)
  have hmem : rwFun nid f c ∈ collapseStep m nid := by
    rw [hres, mem_mapRemove]
    exact ⟨List.mem_map_of_mem _ hcm, by rw [rwFun_id, hcidq]; exact hcne⟩
  have hgot : mapGet (collapseStep m nid) (rwFun nid f c).id = some (rwFun nid f c) :=
    mapGet_of_mem _ _ step_inv.nodupIds hmem
  rw [rwFun_id, hcidq] at hgot
  rw [hgot]
  rw [rwFun_child nid f c (hcidq ▸ hcid) (fun hp => hdisj c.id (hcidq ▸ hcid) hp)]
  rfl

private lemma dataW_edges (a b : String) (h : origEdge dataW a b) :
    rankW a < rankW b := by
  obtain ⟨n, hn, hid, hp⟩ := h
  subst hid
  fin_cases hn
  · simp [RawNode.effParents] at hp
  · simp only [RawNode.effParents, List.mem_singleton] at hp
    subst hp
    decide
  · simp only [RawNode.effParents, List.mem_singleton] at hp
    subst hp
    decide

private lemma dataW_acyclic : AcyclicData dataW := by
  intro a ha
  have key : ∀ b : String, origReach dataW a b → rankW a < rankW b := by
    intro b hb
    induction hb with
    | single h1 => exact dataW_edges _ _ h1
    | tail _ h2 ih => exact lt_trans ih (dataW_edges _ _ h2)
  exact lt_irrefl _ (key a ha)

/-- C4: on an input list forming an acyclic graph whose parent references all
resolve (with per-node parent sets free of duplicates), the fork-collapse
pass yields a graph that is again acyclic and parent-closed, with every
surviving parent list still duplicate-free; and one collapse iteration
rewires each child of the removed fork node by deleting the fork's id from
its parent list and pushing the fork's parents with duplicates skipped. -/
theorem claim_C4 (data : List RawNode)
    (hids : (data.map RawNode.id).Nodup)
    (hpar : ∀ n ∈ data, n.effParents.Nodup)
    (hclosed : ParentClosed data)
    (hacyc : AcyclicData data) :
    (∀ g ∈ flowPrep data, ∀ p ∈ g.parents, ∃ q ∈ flowPrep data, q.id = p) ∧
    (∀ a, ¬ Relation.TransGen (mapEdge (flowPrep data)) a a) ∧
    (∀ g ∈ flowPrep data, g.parents.Nodup) ∧
    (∀ (m : List GNode) (nid : String) (f c : GNode) (cid : String),
      GraphInv (origReach data) m → mapGet m nid = some f → isForkMarker f = true →
      cid ∈ f.children → cid ≠ nid → mapGet m cid = some c →
      mapGet (collapseStep m nid) cid =
        some { c with parents := dedupPush (c.parents.filter (fun i => i ≠ nid)) f.parents }) := by
  have hT : Transitive (origReach data) := fun a b c h1 h2 => h1.trans h2
  have hI : Irreflexive (origReach data) := hacyc
  have hinv : GraphInv (origReach data) (flowPrep data) := by
    rw [flowPrep_eq data hids hpar]
    exact foldl_collapse_inv _ hT hI _ _ (initialMap_inv data hids hpar hclosed)
  refine ⟨?_, ?_, hinv.parNodup, ?_⟩
  · intro g hg p hp
    obtain ⟨pg, hpg, hpgid, _⟩ := hinv.parMem g hg p hp
    exact ⟨pg, hpg, hpgid⟩
  · intro a hcyc
    have hsub : ∀ x y, mapEdge (flowPrep data) x y → origReach data x y := by
      intro x y hxy
      obtain ⟨g, hg, hgid, hx⟩ := hxy
      have hr := hinv.parR g hg x hx
      rwa [hgid] at hr
    exact hacyc a (transGen_of_trans _ hT (Relation.TransGen.mono hsub hcyc))
  · intro m nid f c cid hm hget hmark hcid hcne hc
    exact collapseStep_childEffect _ hT hI m nid f c cid hm hget hmark hcid hcne hc

theorem claim_C4_witness :
    ((dataW.map RawNode.id).Nodup ∧ (∀ n ∈ dataW, n.effParents.Nodup) ∧
      ParentClosed dataW ∧ AcyclicData dataW) ∧
    (∀ g ∈ flowPrep dataW, ∀ p ∈ g.parents, ∃ q ∈ flowPrep dataW, q.id = p) ∧
    (∀ a, ¬ Relation.TransGen (mapEdge (flowPrep dataW)) a a) :=
  ⟨⟨by decide, by decide, by unfold ParentClosed; decide, dataW_acyclic⟩,
    (claim_C4 dataW (by decide) (by decide) (by unfold ParentClosed; decide) dataW_acyclic).1,
    (claim_C4 dataW (by decide) (by decide) (by unfold ParentClosed; decide) dataW_acyclic).2.1⟩

/-! ## Claim C6: rendered node ids come from the fetched data -/

private lemma emitSingle_out (cur : Option String) (st : IdState) (node : GNode) :
    ∀ rn ∈ (emitSingle cur st node).outNodes, rn ∈ st.outNodes ∨ rn.id = node.id := by
  intro rn hrn
  unfold emitSingle at hrn
  rcases List.mem_append.mp hrn with h | h
  · exact Or.inl h
  · right
    have he : rn = ⟨node.id, node.role, "", "", node.content, cur == some node.id⟩ := by
      simpa using h
    rw [he]

private lemma identifyStep_single (m : List GNode) (cur : Option String) (st : IdState)
    (x : GNode) (rn : RNode) (hrn : rn ∈ (emitSingle cur st x).outNodes) :
    rn ∈ st.outNodes ∨ rn.id = x.id ∨ ∃ g ∈ m, g.id = rn.id := by
  rcases emitSingle_out cur st x rn hrn with h | h
  · exact Or.inl h
  · exact Or.inr (Or.inl h)

private lemma identifyStep_out (m : List GNode) (cur : Option String) (st : IdState)
    (x : GNode) : ∀ rn ∈ (identifyStep m cur st x).outNodes,
      rn ∈ st.outNodes ∨ rn.id = x.id ∨ ∃ g ∈ m, g.id = rn.id := by
  intro rn hrn
  by_cases h1 : x.id ∈ st.processed
  · unfold identifyStep at hrn
    rw [if_pos h1] at hrn
    exact Or.inl hrn
  · by_cases h2 : (x.role == "user" && x.children.length == 1) = true
    · rcases hxc : x.children with _ | ⟨cid, rest⟩
      · rw [hxc] at h2
        simp at h2
      · rcases hxr : rest with _ | ⟨c2, rest2⟩
        · subst hxr
          unfold identifyStep at hrn
          rw [if_neg h1, if_pos h2] at hrn
          simp only [hxc, List.head?_cons] at hrn
          cases hget : mapGet m cid with
          | none =>
            simp only [hget] at hrn
            exact identifyStep_single m cur st x rn hrn
          | some child =>
            simp only [hget] at hrn
            by_cases h3 : (child.role == "assistant" && !(st.processed.contains child.id)) = true
            · rw [if_pos h3] at hrn
              rcases List.mem_append.mp hrn with h | h
              · exact Or.inl h
              · have he : rn = ⟨child.id, "turn", x.content, child.content, "Merged Turn",
                    cur == some child.id || cur == some x.id⟩ := by simpa using h
                refine Or.inr (Or.inr ⟨child, (mapGet_some m cid child hget).1, ?_⟩)
                rw [he]
            · rw [if_neg h3] at hrn
              exact identifyStep_single m cur st x rn hrn
        · subst hxr
          rw [hxc] at h2
          simp at h2
    · unfold identifyStep at hrn
      rw [if_neg h1, if_neg h2] at hrn
      exact identifyStep_single m cur st x rn hrn

private lemma identify_fold_out (m : List GNode) (cur : Option String) :
    ∀ (l : List GNode) (st : IdState), (∀ x ∈ l, x ∈ m) →
    (∀ rn ∈ st.outNodes, ∃ g ∈ m, g.id = rn.id) →
    ∀ rn ∈ (l.foldl (identifyStep m cur) st).outNodes, ∃ g ∈ m, g.id = rn.id := by
  intro l
  induction l with
  | nil => intro st _ hst rn hrn; exact hst rn hrn
  | cons x l ih =>
    intro st hl hst rn hrn
    refine ih (identifyStep m cur st x) (fun y hy => hl y (List.mem_cons_of_mem x hy)) ?_ rn hrn
    intro rn' hrn'
    rcases identifyStep_out m cur st x rn' hrn' with h | h | h
    · exact hst rn' h
    · exact ⟨x, hl x (List.mem_cons_self _ _), h.symm⟩
    · exact h

private lemma identify_out_src (m : List GNode) (cur : Option String) :
    ∀ rn ∈ (identifyPass m cur).outNodes, ∃ g ∈ m, g.id = rn.id := by
  intro rn hrn
  exact identify_fold_out m cur m ⟨[], [], []⟩ (fun x hx => hx)
    (fun rn' hrn' => absurd hrn' (List.not_mem_nil rn')) rn hrn

private lemma flowPrep_src (data : List RawNode) :
    ∀ g ∈ flowPrep data, ∃ n ∈ data, n.id = g.id := by
  intro g hg
  have hflow : flowPrep data =
      ((data.foldl populateChildren (buildMap data)).map (fun g => g.id)).foldl collapseStep
        (data.foldl populateChildren (buildMap data)) := rfl
  rw [hflow] at hg
  obtain ⟨g1, hg1, e1, _, _⟩ := collapse_fold_src _ _ g hg
  obtain ⟨F, hFp, hFe⟩ := populate_shape data (buildMap data)
  rw [hFe] at hg1
  obtain ⟨g0, hg0, rfl⟩ := List.mem_map.mp hg1
  rcases buildMap_src data [] g0 hg0 with h | ⟨n, hn, rfl⟩
  · exact absurd h (List.not_mem_nil g0)
  · refine ⟨n, hn, ?_⟩
    rw [e1, (hFp n.toG).1]
    rfl

/-- C6: every node rendered by the FlowGraph transform carries an id that
belongs to a node of the fetched `/graph` data (a non-coalesced node's own
id or the assistant child's id of a coalesced turn), so a modifier-free
click's checkout request always references an existing node and the
UnknownIdentifier branch is unreachable for graph clicks; a modifier-key
click issues no checkout at all. -/
theorem claim_C6 (data : List RawNode) (currentId : Option String) (conv : Option String)
    (rn : RNode) (hrn : rn ∈ flowNodes data currentId) :
    (∃ n ∈ data, n.id = rn.id) ∧
    handleNodeClickReqs false rn.id conv = [Req.checkout rn.id conv] ∧
    handleNodeClickReqs true rn.id conv = [] := by
  refine ⟨?_, rfl, rfl⟩
  obtain ⟨g, hg, hge⟩ := identify_out_src (flowPrep data) currentId rn hrn
  obtain ⟨n, hn, hne⟩ := flowPrep_src data g hg
  exact ⟨n, hn, hne.trans hge⟩

theorem claim_C6_witness :
    (RNode.mk "a2" "assistant" "" "" "hi" false ∈ flowNodes dataC8 none) ∧
    (∃ n ∈ dataC8, n.id = "a2") ∧
    handleNodeClickReqs false "a2" none = [Req.checkout "a2" none] :=
  ⟨by decide,
    (claim_C6 dataC8 none none (RNode.mk "a2" "assistant" "" "" "hi" false) (by decide)).1,
    (claim_C6 dataC8 none none (RNode.mk "a2" "assistant" "" "" "hi" false) (by decide)).2.1⟩

/-! ## Claim C9: edge-pass invariants -/

private lemma assocLookup_mem (l : List (String × String)) (k v : String)
    (h : assocLookup l k = some v) : (k, v) ∈ l := by
  induction l with
  | nil => simp [assocLookup] at h
  | cons kv l ih =>
    obtain ⟨a, b⟩ := kv
    by_cases hk : a = k
    · simp only [assocLookup, if_pos hk] at h
      cases h
      subst hk
      exact List.mem_cons_self _ _
    · simp only [assocLookup, if_neg hk] at h
      exact List.mem_cons_of_mem _ (ih h)

/-- A full case analysis of one identification-pass iteration. -/
private lemma identifyStep_cases (m : List GNode) (cur : Option String) (st : IdState)
    (x : GNode) :
    identifyStep m cur st x = st ∨
    identifyStep m cur st x = emitSingle cur st x ∨
    ∃ child, (∃ cid, x.children = [cid] ∧ mapGet m cid = some child) ∧
      identifyStep m cur st x =
        ⟨st.processed ++ [x.id, child.id],
         st.merged ++ [(x.id, child.id), (child.id, child.id)],
         st.outNodes ++ [⟨child.id, "turn", x.content, child.content, "Merged Turn",
           cur == some child.id || cur == some x.id⟩]⟩ := by
  by_cases h1 : x.id ∈ st.processed
  · left
    unfold identifyStep
    rw [if_pos h1]
  · by_cases h2 : (x.role == "user" && x.children.length == 1) = true
    · rcases hxc : x.children with _ | ⟨cid, rest⟩
      · rw [hxc] at h2
        simp at h2
      · rcases hxr : rest with _ | ⟨c2, rest2⟩
        · subst hxr
          cases hget : mapGet m cid with
          | none =>
            right; left
            unfold identifyStep
            rw [if_neg h1, if_pos h2]
            simp only [hxc, List.head?_cons, hget]
          | some child =>
            by_cases h3 : (child.role == "assistant" && !(st.processed.contains child.id)) = true
            · right; right
              refine ⟨child, ⟨cid, rfl, hget⟩, ?_⟩
              unfold identifyStep
              rw [if_neg h1, if_pos h2]
              simp only [hxc, List.head?_cons, hget]
              rw [if_pos h3]
            · right; left
              unfold identifyStep
              rw [if_neg h1, if_pos h2]
              simp only [hxc, List.head?_cons, hget]
              rw [if_neg h3]
        · subst hxr
          rw [hxc] at h2
          simp at h2
    · right; left
      unfold identifyStep
      rw [if_neg h1, if_neg h2]

private lemma identify_merged_out (m : List GNode) (cur : Option String) :
    ∀ (l : List GNode) (st : IdState),
    (∀ kv ∈ st.merged, ∃ rn ∈ st.outNodes, rn.id = kv.2) →
    ∀ kv ∈ (l.foldl (identifyStep m cur) st).merged,
      ∃ rn ∈ (l.foldl (identifyStep m cur) st).outNodes, rn.id = kv.2 := by
  intro l
  induction l with
  | nil => intro st hst; exact hst
  | cons x l ih =>
    intro st hst
    rw [List.foldl_cons]
    apply ih
    intro kv hkv
    rcases identifyStep_cases m cur st x with he | he | ⟨child, _, he⟩
    · rw [he] at hkv ⊢
      exact hst kv hkv
    · rw [he] at hkv ⊢
      unfold emitSingle at hkv ⊢
      rcases List.mem_append.mp hkv with h | h
      · obtain ⟨rn, hrn, hid⟩ := hst kv h
        exact ⟨rn, List.mem_append_left _ hrn, hid⟩
      · have hkve : kv = (x.id, x.id) := by simpa using h
        subst hkve
        exact ⟨_, List.mem_append_right _ (List.mem_singleton_self _), rfl⟩
    · rw [he] at hkv ⊢
      rcases List.mem_append.mp hkv with h | h
      · obtain ⟨rn, hrn, hid⟩ := hst kv h
        exact ⟨rn, List.mem_append_left _ hrn, hid⟩
      · refine ⟨_, List.mem_append_right _ (List.mem_singleton_self _), ?_⟩
        rcases List.mem_cons.mp h with rfl | h'
        · rfl
        · have hkve : kv = (child.id, child.id) := by simpa using h'
          subst hkve
          rfl

private lemma edge_inner_inv (merged : List (String × String)) (targetId : String)
    (ht : ∃ kv ∈ merged, kv.2 = targetId) (ps : List String) :
    ∀ st : EdgeState, EdgeInv merged st →
    EdgeInv merged (ps.foldl (fun acc srcRaw =>
      match assocLookup merged srcRaw with
      | some sourceId =>
        if sourceId ≠ targetId then
          let key := sourceId ++ "-" ++ targetId
          if key ∈ acc.keys then acc
          else { keys := acc.keys ++ [key], edges := acc.edges ++ [(sourceId, targetId)] }
        else acc
      | none => acc) st) := by
  induction ps with
  | nil => intro st h; exact h
  | cons srcRaw ps ih =>
    intro st h
    rw [List.foldl_cons]
    apply ih
    cases hsrc : assocLookup merged srcRaw with
    | none => exact h
    | some sourceId =>
      show EdgeInv merged (if sourceId ≠ targetId then
          (if (sourceId ++ "-" ++ targetId) ∈ st.keys then st
           else ⟨st.keys ++ [sourceId ++ "-" ++ targetId], st.edges ++ [(sourceId, targetId)]⟩)
        else st)
      have hs : ∃ kv ∈ merged, kv.2 = sourceId :=
        ⟨(srcRaw, sourceId), assocLookup_mem _ _ _ hsrc, rfl⟩
      by_cases hne : sourceId ≠ targetId
      · rw [if_pos hne]
        by_cases hkey : (sourceId ++ "-" ++ targetId) ∈ st.keys
        · rw [if_pos hkey]
          exact h
        · rw [if_neg hkey]
          obtain ⟨h1, h2, h3⟩ := h
          refine ⟨?_, ?_, ?_⟩
          · simp only [List.map_append, List.map_cons, List.map_nil]
            rw [h1]
          · rw [List.nodup_append]
            refine ⟨h2, List.nodup_singleton _, ?_⟩
            intro a ha hb
            rw [List.mem_singleton] at hb
            exact hkey (hb ▸ ha)
          · intro e he
            rcases List.mem_append.mp he with h' | h'
            · exact h3 e h'
            · have hee : e = (sourceId, targetId) := by simpa using h'
              subst hee
              exact ⟨hne, hs, ht⟩
      · rw [if_neg hne]
        exact h

private lemma edgeStep_inv (merged : List (String × String)) (st : EdgeState)
    (node : GNode) (h : EdgeInv merged st) : EdgeInv merged (edgeStep merged st node) := by
  unfold edgeStep
  cases hget : assocLookup merged node.id with
  | none => exact h
  | some targetId =>
    exact edge_inner_inv merged targetId
      ⟨(node.id, targetId), assocLookup_mem _ _ _ hget, rfl⟩ node.parents st h

private lemma edgesPass_inv (m : List GNode) (merged : List (String × String)) :
    EdgeInv merged (m.foldl (edgeStep merged) ⟨[], []⟩) := by
  have hstart : EdgeInv merged ⟨[], []⟩ :=
    ⟨rfl, List.nodup_nil, fun e he => absurd he (List.not_mem_nil e)⟩
  generalize hst : (⟨[], []⟩ : EdgeState) = st at hstart
  clear hst
  induction m generalizing st with
  | nil => exact hstart
  | cons x m ih =>
    rw [List.foldl_cons]
    exact ih _ (edgeStep_inv merged st x hstart)

/-- C9: the edge list handed to the renderer contains no self-loops, no
repeated (source, target) pair, and both endpoints of every edge are ids of
nodes emitted for rendering (edges whose parent id does not resolve through
mergedMap are dropped before reaching the output). -/
theorem claim_C9 (data : List RawNode) (currentId : Option String) :
    (∀ e ∈ flowEdges data currentId, e.1 ≠ e.2) ∧
    (flowEdges data currentId).Nodup ∧
    (∀ e ∈ flowEdges data currentId,
      (∃ rn ∈ flowNodes data currentId, rn.id = e.1) ∧
      (∃ rn ∈ flowNodes data currentId, rn.id = e.2)) := by
  obtain ⟨hk, hnd, hprop⟩ :=
    edgesPass_inv (flowPrep data) ((identifyPass (flowPrep data) currentId).merged)
  have hmv : ∀ kv ∈ (identifyPass (flowPrep data) currentId).merged,
      ∃ rn ∈ (identifyPass (flowPrep data) currentId).outNodes, rn.id = kv.2 :=
    identify_merged_out (flowPrep data) currentId (flowPrep data) ⟨[], [], []⟩
      (fun kv hkv => absurd hkv (List.not_mem_nil kv))
  refine ⟨fun e he => (hprop e he).1, ?_, fun e he => ⟨?_, ?_⟩⟩
  · rw [hk] at hnd
    exact List.Nodup.of_map _ hnd
  · obtain ⟨kv, hkv, hkve⟩ := (hprop e he).2.1
    obtain ⟨rn, hrn, hrne⟩ := hmv kv hkv
    exact ⟨rn, hrn, hrne.trans hkve⟩
  · obtain ⟨kv, hkv, hkve⟩ := (hprop e he).2.2
    obtain ⟨rn, hrn, hrne⟩ := hmv kv hkv
    exact ⟨rn, hrn, hrne.trans hkve⟩

/-! ## Claim C8: user–assistant coalescing -/

/-- C8 is refuted as literally stated: in `dataC8` the assistant child `a2`
precedes its user parent `u1`, so the pass emits `a2` individually before
reaching `u1`; `u1` is then a user node whose single child is an assistant
that was never COALESCED, yet no turn node is rendered and `u1` is shown
individually — the guard is "already processed", not "already coalesced". -/
theorem claim_C8_counterexample :
    (∃ g ∈ flowPrep dataC8, g.id = "u1" ∧ g.role = "user" ∧ g.children = ["a2"]) ∧
    (∃ g ∈ flowPrep dataC8, g.id = "a2" ∧ g.role = "assistant") ∧
    (∀ rn ∈ flowNodes dataC8 none, rn.role ≠ "turn") ∧
    (∃ rn ∈ flowNodes dataC8 none, rn.id = "u1" ∧ rn.role = "user") := by
  decide

/-- C8 (amended): in both renderers a user node with exactly one assistant
child is displayed as a single "turn" under the assistant child's id, showing
both contents and current iff either node is current — but in the ReactFlow
renderer only when neither the user node nor the assistant child has already
been PROCESSED (emitted individually or coalesced) at an earlier iteration;
every other node is emitted individually under its own id, and an
already-processed node produces no additional output. -/
theorem claim_C8 :
    (∀ (m : List GNode) (cur : Option String) (st : IdState) (x : GNode),
      x.id ∈ st.processed → identifyStep m cur st x = st) ∧
    (∀ (m : List GNode) (cur : Option String) (st : IdState) (x child : GNode) (cid : String),
      x.id ∉ st.processed → x.role = "user" → x.children = [cid] →
      mapGet m cid = some child → child.role = "assistant" → child.id ∉ st.processed →
      identifyStep m cur st x =
        ⟨st.processed ++ [x.id, child.id],
         st.merged ++ [(x.id, child.id), (child.id, child.id)],
         st.outNodes ++ [⟨child.id, "turn", x.content, child.content, "Merged Turn",
           cur == some child.id || cur == some x.id⟩]⟩) ∧
    (∀ (m : List GNode) (cur : Option String) (st : IdState) (x : GNode),
      x.id ∉ st.processed →
      ¬(x.role = "user" ∧ ∃ cid child, x.children = [cid] ∧ mapGet m cid = some child ∧
        child.role = "assistant" ∧ child.id ∉ st.processed) →
      identifyStep m cur st x = emitSingle cur st x) ∧
    (∀ (cur : Option String) (st : IdState) (x : GNode),
      emitSingle cur st x =
        ⟨st.processed ++ [x.id], st.merged ++ [(x.id, x.id)],
         st.outNodes ++ [⟨x.id, x.role, "", "", x.content, cur == some x.id⟩]⟩) ∧
    (∀ (cur : Option String) (a b : String),
      (cur == some a || cur == some b) = true ↔ (cur = some a ∨ cur = some b)) ∧
    (∀ (i role content : String) (isCur : Bool) (branch : Option String) (c : TNode),
      role = "user" → c.role = "assistant" →
      transform (TNode.mk i role content isCur branch [c]) =
        DTree.turn c.id content c.content (c.isCur || isCur) (transformList c.children)) ∧
    (∀ (i role content : String) (isCur : Bool) (branch : Option String) (c : TNode),
      ¬(role = "user" ∧ c.role = "assistant") →
      transform (TNode.mk i role content isCur branch [c]) =
        DTree.plain (plainName role content branch) i role content isCur
          (transformList [c])) ∧
    (∀ (i role content : String) (isCur : Bool) (branch : Option String)
      (children : List TNode), (∀ c, children ≠ [c]) →
      transform (TNode.mk i role content isCur branch children) =
        DTree.plain (plainName role content branch) i role content isCur
          (transformList children)) := by
  refine ⟨?_, ?_, ?_, fun _ _ _ => rfl, ?_, ?_, ?_, ?_⟩
  · intro m cur st x h
    unfold identifyStep
    rw [if_pos h]
  · intro m cur st x child cid h1 hrole hch hget hcr hcp
    have h2 : (x.role == "user" && x.children.length == 1) = true := by
      rw [hrole, hch]
      rfl
    have h3 : (child.role == "assistant" && !(st.processed.contains child.id)) = true := by
      rw [hcr]
      simp [hcp]
    unfold identifyStep
    rw [if_neg h1, if_pos h2]
    simp only [hch, List.head?_cons, hget]
    rw [if_pos h3]
  · intro m cur st x h1 hno
    by_cases h2 : (x.role == "user" && x.children.length == 1) = true
    · have hrole : x.role = "user" := by
        have := (Bool.and_eq_true _ _).mp h2
        simpa using this.1
      rcases hxc : x.children with _ | ⟨cid, rest⟩
      · rw [hxc] at h2
        simp at h2
      · rcases hxr : rest with _ | ⟨c2, rest2⟩
        · subst hxr
          cases hget : mapGet m cid with
          | none =>
            unfold identifyStep
            rw [if_neg h1, if_pos h2]
            simp only [hxc, List.head?_cons, hget]
          | some child =>
            by_cases h3 : (child.role == "assistant" && !(st.processed.contains child.id)) = true
            · exfalso
              have hb := (Bool.and_eq_true _ _).mp h3
              exact hno ⟨hrole, cid, child, hxc, hget, by simpa using hb.1, by simpa using hb.2⟩
            · unfold identifyStep
              rw [if_neg h1, if_pos h2]
              simp only [hxc, List.head?_cons, hget]
              rw [if_neg h3]
        · subst hxr
          rw [hxc] at h2
          simp at h2
    · unfold identifyStep
      rw [if_neg h1, if_neg h2]
  · intro cur a b
    cases cur with
    | none =>
      simp [show ((none : Option String) == some a) = false from rfl,
        show ((none : Option String) == some b) = false from rfl]
    | some c =>
      simp only [show ((some c : Option String) == some a) = (c == a) from rfl,
        show ((some c : Option String) == some b) = (c == b) from rfl,
        Bool.or_eq_true, beq_iff_eq, Option.some.injEq]
  · intro i role content isCur branch c h1 h2
    obtain ⟨ci, cr, cc, cic, cb, ccs⟩ := c
    simp only [transform]
    rw [if_pos ⟨h1, h2⟩]
    rfl
  · intro i role content isCur branch c h
    obtain ⟨ci, cr, cc, cic, cb, ccs⟩ := c
    have h' : ¬(role = "user" ∧ cr = "assistant") := h
    simp only [transform]
    rw [if_neg h']
  · intro i role content isCur branch children h
    rcases children with _ | ⟨c1, rest⟩
    · rfl
    · rcases rest with _ | ⟨c2, rest2⟩
      · exact absurd rfl (h c1)
      · obtain ⟨ci, cr, cc, cic, cb, ccs⟩ := c1
        rfl

theorem claim_C8_witness :
    (("u" : String) ∉ ([] : List String)) ∧
    identifyStep [⟨"u", "user", "q", [], ["a"]⟩, ⟨"a", "assistant", "r", ["u"], []⟩] none
        ⟨[], [], []⟩ ⟨"u", "user", "q", [], ["a"]⟩ =
      ⟨["u", "a"], [("u", "a"), ("a", "a")],
       [⟨"a", "turn", "q", "r", "Merged Turn", false⟩]⟩ ∧
    transform (TNode.mk "u" "user" "q" false none [TNode.mk "a" "assistant" "r" true none []]) =
      DTree.turn "a" "q" "r" true (transformList []) :=
  ⟨by decide,
   claim_C8.2.1 [⟨"u", "user", "q", [], ["a"]⟩, ⟨"a", "assistant", "r", ["u"], []⟩] none
     ⟨[], [], []⟩ ⟨"u", "user", "q", [], ["a"]⟩ ⟨"a", "assistant", "r", ["u"], []⟩ "a"
     (by decide) rfl rfl (by decide) rfl (by decide),
   claim_C8.2.2.2.2.2.1 "u" "user" "q" false none
     (TNode.mk "a" "assistant" "r" true none []) rfl rfl⟩

end Forky
